import Mathlib

/-!
Cascading: partitioning a Graph into Parts and selecting the best Combination

A shallow embedding of `driver/support_library/src/cascading/Cascading.cpp`
(`CreateGraphOfParts`, `Cascading::EstimatePerformance`, `Cascading::Estimate`)
and theorems about it.

Conventions of the embedding.

* A `Node*` is a `NodePtr` (a natural number standing for the address of a live
  node owned by the graph; such pointers are never null, so `assert(node)` always
  passes).  `Graph.deref` reads the node behind a pointer.
* A call ends in an `Outcome`: it returns, throws `NotSupportedException`, stops at a
  failed `assert`, or runs into undefined behaviour of the standard library
  (`back()` of an empty vector, `operator[]` out of range).
* `assert` is the macro of `<cassert>`: it stops the program unless `NDEBUG` is
  defined, in which case it expands to nothing.  The flag `NDEBUG : Bool` says which
  of the two builds is meant.
* Declarations that are not among the sources (`Graph`, `Node`,
  `GetOpGraphForCombination`, `EstimateOpGraph`, ...) are parameters of the embedding.
-/

namespace ethosn.support_library

/-! ## Outcomes of a call -/

/-- How a call ends. -/
inductive Outcome (α : Type) where
  /-- The call returned a value. -/
  | returned (value : α)
  /-- The call threw `NotSupportedException(what)`. -/
  | notSupported (what : String)
  /-- The call stopped at a failed `assert` (only in a build without `NDEBUG`). -/
  | assertionFailed (what : String)
  /-- The call ran into undefined behaviour. -/
  | undefinedBehaviour (what : String)
  deriving DecidableEq, Repr

/-- Sequencing: the continuation runs only after a normal return. -/
def Outcome.bind {α β : Type} : Outcome α → (α → Outcome β) → Outcome β
  | .returned a, k => k a
  | .notSupported w, _ => .notSupported w
  | .assertionFailed w, _ => .assertionFailed w
  | .undefinedBehaviour w, _ => .undefinedBehaviour w

/-! ## Graph, Node, Part -/

/-- The address of a node of the graph (a non-null `Node*`). -/
abbrev NodePtr := Nat

/-- An edge of the graph; `GetSource()` is `source`. -/
structure Edge where
  source : NodePtr
  destination : NodePtr
  deriving DecidableEq, Repr

/-- The classes `IsNodeOfType` is instantiated with in `CreateGraphOfParts`. -/
inductive NodeType where
  | MceOperationNode
  | McePostProcessOperationNode
  deriving DecidableEq, Repr

/-- What `CreateGraphOfParts` reads of a node: the result of the two dynamic casts,
`GetInputs()` and `GetOutputs()`. -/
structure Node where
  isMceOperationNode : Bool
  isMcePostProcessOperationNode : Bool
  inputs : List Edge
  outputs : List Edge

/-- The template `IsNodeOfType<T>(node)`: whether `dynamic_cast<const T*>(node)` is non-null. -/
def IsNodeOfType (T : NodeType) (node : Node) : Bool :=
  match T with
  | .MceOperationNode => node.isMceOperationNode
  | .McePostProcessOperationNode => node.isMcePostProcessOperationNode

/-- What `CreateGraphOfParts` reads of a `Graph`: the nodes behind the pointers,
`GetNodes()` (the owned nodes) and `GetNodesSorted()`. -/
structure Graph where
  deref : NodePtr → Node
  GetNodes : List NodePtr
  GetNodesSorted : List NodePtr

/-- A `Part`; only its node sequence `m_SubGraph` matters to partitioning. -/
structure Part where
  m_SubGraph : List NodePtr
  deriving DecidableEq, Repr

/-- The vector `Parts` of owned parts, in creation order. -/
abbrev Parts := List Part

/-- The result of partitioning. -/
structure GraphOfParts where
  m_Parts : Parts
  deriving DecidableEq, Repr

/-! ## CreateGraphOfParts -/

/-- The lambda `AddNodeToPart`: `part.m_SubGraph.push_back(node)`. -/
def AddNodeToPart (node : NodePtr) (part : Part) : Part :=
  { m_SubGraph := part.m_SubGraph ++ [node] }

/-- The lambda `AddNodeToNewPart`: push a fresh (empty) part, then add the node to
`parts.back()`. -/
def AddNodeToNewPart (parts : Parts) (node : NodePtr) : Parts :=
  parts ++ [AddNodeToPart node { m_SubGraph := [] }]

/-- The loop of `FindPartFromSourceAndAddNode` over the parts still to visit, most
recently created first.  `some ps` is the same list with the node appended to the
first part whose last node is the source of one of `inputs`; `none` means the loop
ran to its end without a match. -/
def findPartRev (inputs : List Edge) (ppOpNode : NodePtr) :
    List Part → Outcome (Option (List Part))
  | [] => .returned none
  | part :: rest =>
    match part.m_SubGraph.getLast? with
    | none => .undefinedBehaviour "m_SubGraph.back() on an empty vector"
    | some partOutputNode =>
      if inputs.any (fun input => input.source == partOutputNode) then
        .returned (some (AddNodeToPart ppOpNode part :: rest))
      else
        match findPartRev inputs ppOpNode rest with
        | .returned (some found) => .returned (some (part :: found))
        | other => other

/-- The lambda `FindPartFromSourceAndAddNode`: visit the parts in reverse; when no
part matches, `assert(!"MCE Post-Process node has not been added to any Part")`. -/
def FindPartFromSourceAndAddNode (NDEBUG : Bool) (g : Graph) (parts : Parts)
    (ppOpNode : NodePtr) : Outcome Parts :=
  (findPartRev (g.deref ppOpNode).inputs ppOpNode parts.reverse).bind fun found =>
    match found with
    | some revParts => .returned revParts.reverse
    | none =>
      if NDEBUG then .returned parts
      else .assertionFailed "MCE Post-Process node has not been added to any Part"

/-- The body of the `for (Node* node : graph.GetNodesSorted())` loop. -/
def partitionStep (NDEBUG : Bool) (g : Graph) (parts : Parts) (node : NodePtr) :
    Outcome Parts :=
  if IsNodeOfType .McePostProcessOperationNode (g.deref node) then
    match (g.deref node).inputs with
    | [] => .undefinedBehaviour "GetInputs()[0] on an empty vector"
    | input0 :: _ =>
      let source := input0.source
      if IsNodeOfType .MceOperationNode (g.deref source)
          && (g.deref source).outputs.length == 1 then
        FindPartFromSourceAndAddNode NDEBUG g parts node
      else
        .returned (AddNodeToNewPart parts node)
  else
    .returned (AddNodeToNewPart parts node)

/-- The test of the loop body that selects case 1: the node is a post-process node
and the source of its first input is an MCE operation node with a single output. -/
def isCase1 (g : Graph) (node : NodePtr) : Bool :=
  IsNodeOfType .McePostProcessOperationNode (g.deref node) &&
    match (g.deref node).inputs with
    | [] => false
    | input0 :: _ =>
      IsNodeOfType .MceOperationNode (g.deref input0.source)
        && (g.deref input0.source).outputs.length == 1

/-- The test `input->GetSource() == partOutputNode` succeeds for some input: the last
node of the part is the source of one of the inputs. -/
def endsInSourceOf (inputs : List Edge) (part : Part) : Prop :=
  ∃ last, part.m_SubGraph.getLast? = some last ∧ ∃ e ∈ inputs, e.source = last

/-- All nodes of all parts, in part order. -/
def allNodes : Parts → List NodePtr
  | [] => []
  | part :: rest => part.m_SubGraph ++ allNodes rest

/-- Node `b` can have been appended right behind node `a`: `b` is a case 1 node and
`a` is the source of one of its inputs. -/
def appendedBehind (g : Graph) (a b : NodePtr) : Prop :=
  isCase1 g b = true ∧ ∃ e ∈ (g.deref b).inputs, e.source = a

/-- The shape of a node sequence built by the loop: it starts with a node that opened
the part and goes on with nodes appended by case 1. -/
structure PartShape (g : Graph) (l : List NodePtr) : Prop where
  head_new : ∃ h t, l = h :: t ∧ isCase1 g h = false
  chain : List.Chain' (appendedBehind g) l

/-- What holds of the parts once the nodes `done` have been processed. -/
structure PartsInv (g : Graph) (done : List NodePtr) (parts : Parts) : Prop where
  shape : ∀ p ∈ parts, PartShape g p.m_SubGraph
  sublist : ∀ p ∈ parts, p.m_SubGraph.Sublist done
  subperm : (allNodes parts).Subperm done

/-- The partitioning loop over the nodes still to process. -/
def partitionLoop (NDEBUG : Bool) (g : Graph) : List NodePtr → Parts → Outcome Parts
  | [], parts => .returned parts
  | node :: rest, parts =>
    (partitionStep NDEBUG g parts node).bind fun next => partitionLoop NDEBUG g rest next

/-- The loop has processed `done`, holds `parts`, and now meets the case 1 node `n`
for which the reverse search finds no part. -/
def searchFails (N : Bool) (g : Graph) (done : List NodePtr) (n : NodePtr)
    (rest : List NodePtr) (parts : Parts) : Prop :=
  g.GetNodesSorted = done ++ n :: rest
    ∧ partitionLoop N g done [] = .returned parts
    ∧ isCase1 g n = true
    ∧ ∀ q ∈ parts, ¬ endsInSourceOf (g.deref n).inputs q

/-- The `std::set<Node*> nodes` filled from `graph.GetNodes()` through an inserter,
kept as a duplicate-free list. -/
def nodeSet (g : Graph) : List NodePtr :=
  g.GetNodes.foldl (fun nodes n => List.insert n nodes) []

/-- The two nested validation loops: `nodes.erase(n)` for every node of every part. -/
def eraseAssigned (parts : Parts) (nodes : List NodePtr) : List NodePtr :=
  parts.foldl (fun acc p => p.m_SubGraph.foldl (fun acc2 n => acc2.erase n) acc) nodes

/-- `CreateGraphOfParts(graph, estOpt, compOpt, capabilities)`; the three option
arguments are only handed to the `Part` constructor. -/
def CreateGraphOfParts (NDEBUG : Bool) (g : Graph) : Outcome GraphOfParts :=
  (partitionLoop NDEBUG g g.GetNodesSorted []).bind fun parts =>
    if !(eraseAssigned parts (nodeSet g)).isEmpty then
      .notSupported "Some nodes could not be assigned to a Part"
    else
      .returned { m_Parts := parts }

/-! ## Properties of graphs and of parts used in the statements -/

/-- The first nodes of the parts, in part order. -/
def heads (parts : Parts) : List NodePtr :=
  parts.filterMap fun p => p.m_SubGraph.head?

/-- The input edges of the listed nodes, node by node. -/
def inputEdges (g : Graph) : List NodePtr → List Edge
  | [] => []
  | n :: rest => (g.deref n).inputs ++ inputEdges g rest

/-- All edges of the graph: every edge is an input edge of one node of `GetNodes`. -/
def Graph.edges (g : Graph) : List Edge :=
  inputEdges g g.GetNodes

/-- A well-formed graph: the output edges of a node are exactly the edges of the graph
that have it as source, an MCE operation node is not a post-process node, and a
post-process node has an input. -/
structure Graph.WellFormed (g : Graph) : Prop where
  outputs_eq : ∀ n ∈ g.GetNodes,
    (g.deref n).outputs.Perm (g.edges.filter fun e => e.source == n)
  mce_not_pp : ∀ n ∈ g.GetNodes, IsNodeOfType .MceOperationNode (g.deref n) = true →
    IsNodeOfType .McePostProcessOperationNode (g.deref n) = false
  pp_has_input : ∀ n ∈ g.GetNodes,
    IsNodeOfType .McePostProcessOperationNode (g.deref n) = true → (g.deref n).inputs ≠ []

/-- Every node of the list comes after the sources of its inputs, `seen` being the
nodes that come before the list. -/
def sourcesBefore (g : Graph) : List NodePtr → List NodePtr → Bool
  | _, [] => true
  | seen, n :: rest =>
    (g.deref n).inputs.all (fun e => seen.contains e.source)
      && sourcesBefore g (seen ++ [n]) rest

/-- `GetNodesSorted` is a topological order of the graph: it lists every node of the
graph once, and after the sources of its inputs. -/
structure Graph.SortedTopologically (g : Graph) : Prop where
  nodup : g.GetNodesSorted.Nodup
  perm : g.GetNodesSorted.Perm g.GetNodes
  sources_before : sourcesBefore g [] g.GetNodesSorted = true

/-- Every processed node is in a part. -/
def Covered (done : List NodePtr) (parts : Parts) : Prop :=
  ∀ x ∈ done, ∃ p ∈ parts, x ∈ p.m_SubGraph

/-! ## Cascading::EstimatePerformance -/

/-- The enumeration `CompilationOptions::DebugLevel`. -/
inductive DebugLevel where
  | None
  | Medium
  | High
  deriving DecidableEq, Repr

/-- The underlying value of a `DebugLevel`, which `>=` compares. -/
def DebugLevel.toNat : DebugLevel → Nat
  | .None => 0
  | .Medium => 1
  | .High => 2

/-- The result of `EstimateOpGraph`; only `m_PerfData` is read here. -/
structure EstimatedOpGraph (Perf : Type) where
  m_PerfData : Perf
  deriving DecidableEq, Repr

/-- The functions `EstimatePerformance` calls that are defined elsewhere.
`EstimateOpGraph` is taken at the fixed `m_Capabilities` and `GetEstimationOptions()`
of the object. -/
structure Estimator (Combination OpGraph Perf : Type) where
  GetOpGraphForCombination : Combination → GraphOfParts → Outcome OpGraph
  EstimateOpGraph : OpGraph → Outcome (EstimatedOpGraph Perf)
  IsLeftMoreDataPerformantThanRight : Perf → Perf → Bool

/-- The data members of a `Cascading` object.  `m_BestCombination` points into
`m_ValidCombinations`: `some i` is the address of element `i` of that vector at the
time the pointer was taken, `none` is `nullptr`. -/
structure Cascading (Combination Perf : Type) where
  m_GraphOfParts : GraphOfParts
  m_ValidCombinations : List Combination
  m_PerformanceStream : Perf
  m_BestCombination : Option Nat
  deriving DecidableEq, Repr

/-- What the loop of `EstimatePerformance` updates: two members and the local
`bestCombinationIdx`. -/
structure EstimateState (Perf : Type) where
  m_PerformanceStream : Perf
  m_BestCombination : Option Nat
  bestCombinationIdx : Option Nat
  deriving DecidableEq, Repr

section Estimate

variable {Combination OpGraph Perf : Type}

/-- The two calls at the start of the `try` block:
`EstimateOpGraph(GetOpGraphForCombination(combination, m_GraphOfParts), ...)`. -/
def estimateCombination (est : Estimator Combination OpGraph Perf) (gop : GraphOfParts)
    (combination : Combination) : Outcome (EstimatedOpGraph Perf) :=
  (est.GetOpGraphForCombination combination gop).bind est.EstimateOpGraph

/-- One iteration of the loop over `m_ValidCombinations`: the `try` block and the
`catch (const NotSupportedException&)` clause, which swallows that exception only. -/
def estimateStep (est : Estimator Combination OpGraph Perf) (gop : GraphOfParts)
    (st : EstimateState Perf) (combinationIdx : Nat) (combination : Combination) :
    Outcome (EstimateState Perf) :=
  match estimateCombination est gop combination with
  | .returned curNetPerfData =>
    if !st.bestCombinationIdx.isSome
        || est.IsLeftMoreDataPerformantThanRight curNetPerfData.m_PerfData
            st.m_PerformanceStream then
      .returned
        { m_PerformanceStream := curNetPerfData.m_PerfData
          m_BestCombination := some combinationIdx
          bestCombinationIdx := some combinationIdx }
    else
      .returned st
  | .notSupported _ => .returned st
  | .assertionFailed w => .assertionFailed w
  | .undefinedBehaviour w => .undefinedBehaviour w

/-- The loop over the combinations still to visit; `combinationIdx` is incremented
after every iteration. -/
def estimateLoop (est : Estimator Combination OpGraph Perf) (gop : GraphOfParts) :
    List Combination → Nat → EstimateState Perf → Outcome (EstimateState Perf)
  | [], _, st => .returned st
  | combination :: rest, combinationIdx, st =>
    (estimateStep est gop st combinationIdx combination).bind fun next =>
      estimateLoop est gop rest (combinationIdx + 1) next

/-- `Cascading::EstimatePerformance()`, at debug level `m_DumpDebugFiles`.  Writing
the dump files is left out; the calls made to produce them are kept: from `Medium`
on, the best combination is lowered and estimated once more after the loop, outside
any `try`. -/
def EstimatePerformance (m_DumpDebugFiles : DebugLevel)
    (est : Estimator Combination OpGraph Perf) (c : Cascading Combination Perf) :
    Outcome (Cascading Combination Perf) :=
  (estimateLoop est c.m_GraphOfParts c.m_ValidCombinations 0
      { m_PerformanceStream := c.m_PerformanceStream
        m_BestCombination := c.m_BestCombination
        bestCombinationIdx := none }).bind fun st =>
    let done : Cascading Combination Perf :=
      { c with
        m_PerformanceStream := st.m_PerformanceStream
        m_BestCombination := st.m_BestCombination }
    if DebugLevel.Medium.toNat ≤ m_DumpDebugFiles.toNat then
      match st.bestCombinationIdx with
      | none => .returned done
      | some _ =>
        match st.m_BestCombination.bind fun i => c.m_ValidCombinations[i]? with
        | none => .undefinedBehaviour "*m_BestCombination does not point into m_ValidCombinations"
        | some best =>
          (estimateCombination est c.m_GraphOfParts best).bind fun _ => .returned done
    else
      .returned done

/-- `Cascading::GetBestCombination()`. -/
def GetBestCombination (c : Cascading Combination Perf) : Option Nat :=
  c.m_BestCombination

/-- The assumption that `IsLeftMoreDataPerformantThanRight` is a strict total order. -/
structure IsStrictTotalOrderOn (lt : Perf → Perf → Bool) : Prop where
  irrefl : ∀ a, lt a a = false
  trans : ∀ a b c, lt a b = true → lt b c = true → lt a c = true
  total : ∀ a b, lt a b = true ∨ a = b ∨ lt b a = true

/-- Whether estimating the combination ends with `NotSupportedException`. -/
def failsNotSupported (est : Estimator Combination OpGraph Perf) (gop : GraphOfParts)
    (combination : Combination) : Bool :=
  match estimateCombination est gop combination with
  | .notSupported _ => true
  | _ => false

/-- Whether estimating the combination returns or ends with `NotSupportedException`. -/
def returnsOrNotSupported (est : Estimator Combination OpGraph Perf) (gop : GraphOfParts)
    (combination : Combination) : Bool :=
  match estimateCombination est gop combination with
  | .returned _ => true
  | .notSupported _ => true
  | _ => false

/-- The combination was estimated with metric `perf`. -/
def estimatedAs (est : Estimator Combination OpGraph Perf) (gop : GraphOfParts)
    (combination : Combination) (perf : Perf) : Prop :=
  ∃ e, estimateCombination est gop combination = .returned e ∧ e.m_PerfData = perf

/-- What holds of the loop state `s` once the combinations `visited` have been gone
through, the members having been `p0` and `b0` before the loop: either none of them
was estimated and nothing changed, or the state names an estimated combination that
none beats and that beats every estimated one before it. -/
def BestSoFar (est : Estimator Combination OpGraph Perf) (gop : GraphOfParts)
    (p0 : Perf) (b0 : Option Nat) (visited : List Combination) (s : EstimateState Perf) :
    Prop :=
  (s.bestCombinationIdx = none ∧ s.m_BestCombination = b0 ∧ s.m_PerformanceStream = p0
      ∧ ∀ comb ∈ visited, ∀ perf, ¬ estimatedAs est gop comb perf)
    ∨ ∃ (i : Nat) (best : Combination),
        s.bestCombinationIdx = some i ∧ s.m_BestCombination = some i
        ∧ visited[i]? = some best
        ∧ estimatedAs est gop best s.m_PerformanceStream
        ∧ (∀ (j : Nat) comb perf, visited[j]? = some comb → estimatedAs est gop comb perf →
            est.IsLeftMoreDataPerformantThanRight perf s.m_PerformanceStream = false)
        ∧ ∀ (j : Nat) comb perf, j < i → visited[j]? = some comb →
            estimatedAs est gop comb perf →
            est.IsLeftMoreDataPerformantThanRight s.m_PerformanceStream perf = true

/-- The part of `BestSoFar` that needs no order: when the loop has selected a
combination, both `bestCombinationIdx` and `m_BestCombination` name a visited
combination that was estimated with metric `m_PerformanceStream`; when it has not, the
members are untouched and no visited combination was estimated. -/
def Selected (est : Estimator Combination OpGraph Perf) (gop : GraphOfParts)
    (p0 : Perf) (b0 : Option Nat) (visited : List Combination) (s : EstimateState Perf) :
    Prop :=
  (s.bestCombinationIdx = none ∧ s.m_BestCombination = b0 ∧ s.m_PerformanceStream = p0
      ∧ ∀ comb ∈ visited, ∀ perf, ¬ estimatedAs est gop comb perf)
    ∨ ∃ (i : Nat) (best : Combination),
        s.bestCombinationIdx = some i ∧ s.m_BestCombination = some i
        ∧ visited[i]? = some best
        ∧ estimatedAs est gop best s.m_PerformanceStream

/-- The list without the combinations whose estimation ends with
`NotSupportedException`. -/
def withoutNotSupported (est : Estimator Combination OpGraph Perf) (gop : GraphOfParts)
    (combinations : List Combination) : List Combination :=
  combinations.filter fun comb => !failsNotSupported est gop comb

/-- The loop states `s` over the combinations `visited` and `s2` over
`withoutNotSupported visited` agree: the same metric, and either neither has selected
anything (every visited combination was refused) or both point at the same
combination, which in the shorter list stands at the number of combinations kept
before it. -/
def SameSelection (est : Estimator Combination OpGraph Perf) (gop : GraphOfParts)
    (p0 : Perf) (b0 : Option Nat) (visited : List Combination)
    (s s2 : EstimateState Perf) : Prop :=
  s.m_PerformanceStream = s2.m_PerformanceStream
    ∧ ((s.bestCombinationIdx = none ∧ s2.bestCombinationIdx = none
          ∧ s.m_BestCombination = b0 ∧ s2.m_BestCombination = b0
          ∧ s.m_PerformanceStream = p0
          ∧ ∀ comb ∈ visited, failsNotSupported est gop comb = true)
      ∨ ∃ (i : Nat) (best : Combination),
          s.bestCombinationIdx = some i ∧ s.m_BestCombination = some i
            ∧ s2.bestCombinationIdx
                = some (withoutNotSupported est gop (visited.take i)).length
            ∧ s2.m_BestCombination
                = some (withoutNotSupported est gop (visited.take i)).length
            ∧ visited[i]? = some best
            ∧ (withoutNotSupported est gop visited)[
                (withoutNotSupported est gop (visited.take i)).length]? = some best)

end Estimate

/-! ## Cascading::Estimate -/

/-- The functions `Cascading::Estimate` calls that are defined elsewhere:
`Part::CreatePlans` (whose result, the plans the part then owns, is kept beside the
part) and `Combine`. -/
structure Planner (Combination Plans : Type) where
  PartCreatePlans : Part → Outcome Plans
  Combine : GraphOfParts → List Plans → Outcome (List Combination)

section EstimateCall

variable {Combination OpGraph Perf Plans : Type}

/-- `CreatePlans(Parts& parts)`: `part->CreatePlans()` for every part, in order. -/
def CreatePlans (partCreatePlans : Part → Outcome Plans) : Parts → Outcome (List Plans)
  | [] => .returned []
  | part :: rest =>
    (partCreatePlans part).bind fun plans =>
      (CreatePlans partCreatePlans rest).bind fun more => .returned (plans :: more)

/-- The loop of `Estimate` that runs at debug level `High`: every valid combination is
lowered with `GetOpGraphForCombination` to be written out, outside any `try`. -/
def dumpCombinations (est : Estimator Combination OpGraph Perf) (gop : GraphOfParts) :
    List Combination → Outcome Unit
  | [] => .returned ()
  | comb :: rest =>
    (est.GetOpGraphForCombination comb gop).bind fun _ => dumpCombinations est gop rest

/-- The constructor `Cascading::Cascading`: `m_BestCombination(nullptr)`, the other
members default-constructed (`zero` is the default `NetworkPerformanceData`). -/
def Cascading.construct (zero : Perf) : Cascading Combination Perf :=
  { m_GraphOfParts := { m_Parts := [] }
    m_ValidCombinations := []
    m_PerformanceStream := zero
    m_BestCombination := none }

/-- `Cascading::Estimate(Graph& graph)` on the object `c`, at debug level
`m_DumpDebugFiles`: the returned `NetworkPerformanceData` and the object after the
call.  Writing the dump files is left out; the calls made to produce them are kept. -/
def Estimate (NDEBUG : Bool) (m_DumpDebugFiles : DebugLevel)
    (planner : Planner Combination Plans) (est : Estimator Combination OpGraph Perf)
    (graph : Graph) (c : Cascading Combination Perf) :
    Outcome (Perf × Cascading Combination Perf) :=
  (CreateGraphOfParts NDEBUG graph).bind fun m_GraphOfParts =>
    (CreatePlans planner.PartCreatePlans m_GraphOfParts.m_Parts).bind fun plans =>
      (planner.Combine m_GraphOfParts plans).bind fun m_ValidCombinations =>
        (if DebugLevel.High.toNat ≤ m_DumpDebugFiles.toNat then
            dumpCombinations est m_GraphOfParts m_ValidCombinations
          else .returned ()).bind fun _ =>
          if m_ValidCombinations.isEmpty then
            .notSupported "No valid combinations were found."
          else
            (EstimatePerformance m_DumpDebugFiles est
                { c with
                  m_GraphOfParts := m_GraphOfParts
                  m_ValidCombinations := m_ValidCombinations }).bind fun done =>
              .returned (done.m_PerformanceStream, done)

end EstimateCall

/-! ### Sample graphs -/

/-- A node with the given casts and edges. -/
def mkNode (mce pp : Bool) (ins : List NodePtr) (self : NodePtr) (outs : List NodePtr) : Node :=
  { isMceOperationNode := mce
    isMcePostProcessOperationNode := pp
    inputs := ins.map fun s => { source := s, destination := self }
    outputs := outs.map fun d => { source := self, destination := d } }

/-- The chain input(1) -> MCE(2) -> post-process(3). -/
def chainGraph : Graph :=
  { deref := fun p =>
      match p with
      | 1 => mkNode false false [] 1 [2]
      | 2 => mkNode true false [1] 2 [3]
      | 3 => mkNode false true [2] 3 []
      | _ => mkNode false false [] 0 []
    GetNodes := [1, 2, 3]
    GetNodesSorted := [1, 2, 3] }

/-- A fork: input(1) -> MCE(2), whose output feeds both post-process(3) and node 4. -/
def forkGraph : Graph :=
  { deref := fun p =>
      match p with
      | 1 => mkNode false false [] 1 [2]
      | 2 => mkNode true false [1] 2 [3, 4]
      | 3 => mkNode false true [2] 3 []
      | 4 => mkNode false false [2] 4 []
      | _ => mkNode false false [] 0 []
    GetNodes := [1, 2, 3, 4]
    GetNodesSorted := [1, 2, 3, 4] }

/-- A post-process node(3) met before the MCE node(2) that produces its input. -/
def orphanGraph : Graph :=
  { deref := fun p =>
      match p with
      | 2 => mkNode true false [] 2 [3]
      | 3 => mkNode false true [2] 3 []
      | _ => mkNode false false [] 0 []
    GetNodes := [2, 3]
    GetNodesSorted := [3, 2] }

/-- An estimator over combinations that are numbers: the metric of `n` is `n % 10`,
combinations from 100 on are refused, and fewer is more performant. -/
def sampleEstimator : Estimator Nat Nat Nat :=
  { GetOpGraphForCombination := fun n _ =>
      if n < 100 then .returned n else .notSupported "no op graph"
    EstimateOpGraph := fun n => .returned { m_PerfData := n % 10 }
    IsLeftMoreDataPerformantThanRight := fun a b => decide (a < b) }

/-- A freshly constructed object holding the given combinations. -/
def sampleCascading (combinations : List Nat) : Cascading Nat Nat :=
  { m_GraphOfParts := { m_Parts := [] }
    m_ValidCombinations := combinations
    m_PerformanceStream := 0
    m_BestCombination := none }

/-- A graph without nodes. -/
def emptyGraph : Graph :=
  { deref := fun _ => mkNode false false [] 0 []
    GetNodes := []
    GetNodesSorted := [] }

/-- Two MCE nodes feeding one post-process node: MCE(1) has the single output to
post-process(3); MCE(2) feeds both post-process(3) and node 4. -/
def twoProducerGraph : Graph :=
  { deref := fun p =>
      match p with
      | 1 => mkNode true false [] 1 [3]
      | 2 => mkNode true false [] 2 [3, 4]
      | 3 => mkNode false true [1, 2] 3 []
      | 4 => mkNode false false [2] 4 []
      | _ => mkNode false false [] 0 []
    GetNodes := [1, 2, 3, 4]
    GetNodesSorted := [1, 2, 3, 4] }

/-- The chain input(1) -> MCE(2) -> post-process(3) in which the MCE node has two
output edges. -/
def twoConsumerChain : Graph :=
  { deref := fun p =>
      match p with
      | 1 => mkNode false false [] 1 [2]
      | 2 => mkNode true false [1] 2 [3, 3]
      | 3 => mkNode false true [2] 3 []
      | _ => mkNode false false [] 0 []
    GetNodes := [1, 2, 3]
    GetNodesSorted := [1, 2, 3] }

/-- A planner over combinations that are numbers: a part has as many plans as nodes;
two parts combine to five combinations, four parts to two, any other number to none. -/
def samplePlanner : Planner Nat Nat :=
  { PartCreatePlans := fun part => .returned part.m_SubGraph.length
    Combine := fun gop _ =>
      match gop.m_Parts.length with
      | 2 => .returned [15, 200, 13, 23, 7]
      | 4 => .returned [200, 300]
      | _ => .returned [] }

/-- An estimator that always builds the op graph and refuses to estimate combinations
from 100 on; the metric of `n` is `n % 10` and fewer is more performant. -/
def strictEstimator : Estimator Nat Nat Nat :=
  { GetOpGraphForCombination := fun n _ => .returned n
    EstimateOpGraph := fun n =>
      if n < 100 then .returned { m_PerfData := n % 10 } else .notSupported "not estimated"
    IsLeftMoreDataPerformantThanRight := fun a b => decide (a < b) }

/-- A planner whose `Combine` returns the single combination 15 for every graph. -/
def singlePlanner : Planner Nat Nat :=
  { PartCreatePlans := fun part => .returned part.m_SubGraph.length
    Combine := fun _ _ => .returned [15] }

/-- An object as an earlier call may leave it: a report 7 and a pointer to element 1. -/
def usedCascading : Cascading Nat Nat :=
  { m_GraphOfParts := { m_Parts := [⟨[9]⟩] }
    m_ValidCombinations := [18, 17]
    m_PerformanceStream := 7
    m_BestCombination := some 1 }

/-! ## Lemmas on outcomes -/

theorem Outcome.bind_eq_returned {α β : Type} {o : Outcome α} {k : α → Outcome β} {b : β} :
    o.bind k = .returned b ↔ ∃ a, o = .returned a ∧ k a = .returned b := by
  cases o <;> simp [Outcome.bind]

theorem Outcome.bind_returned {α β : Type} (a : α) (k : α → Outcome β) :
    (Outcome.returned a).bind k = k a := rfl

/-! ## Lemmas on the reverse search -/

theorem findPartRev_some {inputs : List Edge} {n : NodePtr} :
    ∀ {rev found : List Part}, findPartRev inputs n rev = .returned (some found) →
      ∃ A p B, rev = A ++ p :: B ∧ found = A ++ AddNodeToPart n p :: B
        ∧ endsInSourceOf inputs p ∧ ∀ q ∈ A, ¬ endsInSourceOf inputs q := by
  intro rev
  induction rev with
  | nil => intro found h; simp [findPartRev] at h
  | cons part rest ih =>
    intro found h
    unfold findPartRev at h
    cases hl : part.m_SubGraph.getLast? with
    | none => simp [hl] at h
    | some last =>
      simp only [hl] at h
      by_cases hm : inputs.any (fun input => input.source == last) = true
      · rw [if_pos hm] at h
        simp only [Outcome.returned.injEq, Option.some.injEq] at h
        refine ⟨[], part, rest, rfl, by simpa using h.symm, ⟨last, hl, ?_⟩, by simp⟩
        simpa using hm
      · rw [if_neg hm] at h
        cases hr : findPartRev inputs n rest with
        | returned r =>
          cases r with
          | none => simp [hr] at h
          | some f =>
            simp only [hr, Outcome.returned.injEq, Option.some.injEq] at h
            obtain ⟨A, p, B, h1, h2, h3, h4⟩ := ih hr
            refine ⟨part :: A, p, B, by simp [h1], by simp [← h, h2], h3, ?_⟩
            intro q hq
            rcases List.mem_cons.1 hq with rfl | hq
            · rintro ⟨l, hl2, e, he, hel⟩
              rw [hl] at hl2
              cases hl2
              exact hm (by simpa using ⟨e, he, hel⟩)
            · exact h4 q hq
        | notSupported w => simp [hr] at h
        | assertionFailed w => simp [hr] at h
        | undefinedBehaviour w => simp [hr] at h

theorem findPartRev_none {inputs : List Edge} {n : NodePtr} :
    ∀ {rev : List Part}, findPartRev inputs n rev = .returned none →
      ∀ q ∈ rev, ¬ endsInSourceOf inputs q := by
  intro rev
  induction rev with
  | nil => intro _ q hq; simp at hq
  | cons part rest ih =>
    intro h
    unfold findPartRev at h
    cases hl : part.m_SubGraph.getLast? with
    | none => simp [hl] at h
    | some last =>
      simp only [hl] at h
      by_cases hm : inputs.any (fun input => input.source == last) = true
      · rw [if_pos hm] at h; simp at h
      · rw [if_neg hm] at h
        cases hr : findPartRev inputs n rest with
        | returned r =>
          cases r with
          | none =>
            intro q hq
            rcases List.mem_cons.1 hq with rfl | hq
            · rintro ⟨l, hl2, e, he, hel⟩
              rw [hl] at hl2
              cases hl2
              exact hm (by simpa using ⟨e, he, hel⟩)
            · exact ih hr q hq
          | some f => simp [hr] at h
        | notSupported w => simp [hr] at h
        | assertionFailed w => simp [hr] at h
        | undefinedBehaviour w => simp [hr] at h

/-- The search ends in one of three ways when no part is empty: a match, no match;
it never throws and never fails an assertion. -/
theorem findPartRev_total {inputs : List Edge} {n : NodePtr} :
    ∀ {rev : List Part}, (∀ q ∈ rev, q.m_SubGraph ≠ []) →
      ∃ r, findPartRev inputs n rev = .returned r := by
  intro rev
  induction rev with
  | nil => intro _; exact ⟨none, rfl⟩
  | cons part rest ih =>
    intro hne
    unfold findPartRev
    cases hl : part.m_SubGraph.getLast? with
    | none =>
      exact absurd (List.getLast?_eq_none_iff.1 hl) (hne part (List.mem_cons_self _ _))
    | some last =>
      simp only
      by_cases hm : inputs.any (fun input => input.source == last) = true
      · rw [if_pos hm]; exact ⟨_, rfl⟩
      · rw [if_neg hm]
        obtain ⟨r, hr⟩ := ih (fun q hq => hne q (List.mem_cons_of_mem _ hq))
        rw [hr]
        cases r with
        | none => exact ⟨_, rfl⟩
        | some f => exact ⟨_, rfl⟩

/-! ## Lemmas on one iteration of the partitioning loop -/

theorem FindPartFromSourceAndAddNode_returned {N : Bool} {g : Graph} {parts next : Parts}
    {n : NodePtr} (h : FindPartFromSourceAndAddNode N g parts n = .returned next) :
    (∃ A p B, parts = A ++ p :: B ∧ next = A ++ AddNodeToPart n p :: B
        ∧ endsInSourceOf (g.deref n).inputs p
        ∧ ∀ q ∈ B, ¬ endsInSourceOf (g.deref n).inputs q)
    ∨ (N = true ∧ next = parts ∧ ∀ q ∈ parts, ¬ endsInSourceOf (g.deref n).inputs q) := by
  unfold FindPartFromSourceAndAddNode at h
  obtain ⟨found, hf, hk⟩ := Outcome.bind_eq_returned.1 h
  cases found with
  | some revParts =>
    left
    simp only [Outcome.returned.injEq] at hk
    obtain ⟨A, p, B, h1, h2, h3, h4⟩ := findPartRev_some hf
    refine ⟨B.reverse, p, A.reverse, ?_, ?_, h3, ?_⟩
    · have := congrArg List.reverse h1
      simpa using this
    · rw [← hk, h2]; simp
    · intro q hq; exact h4 q (List.mem_reverse.1 hq)
  | none =>
    right
    cases N with
    | true =>
      simp only [if_true, Outcome.returned.injEq] at hk
      refine ⟨rfl, hk.symm, ?_⟩
      intro q hq
      exact findPartRev_none hf q (List.mem_reverse.2 hq)
    | false => simp at hk

/-- The three ways an iteration can return: a new part, an append to the part found
by the reverse search, or (assertions compiled out) nothing at all. -/
theorem partitionStep_returned {N : Bool} {g : Graph} {parts next : Parts} {n : NodePtr}
    (h : partitionStep N g parts n = .returned next) :
    (isCase1 g n = false ∧ next = parts ++ [{ m_SubGraph := [n] }])
    ∨ (isCase1 g n = true ∧ ∃ A p B, parts = A ++ p :: B
        ∧ next = A ++ AddNodeToPart n p :: B
        ∧ endsInSourceOf (g.deref n).inputs p
        ∧ ∀ q ∈ B, ¬ endsInSourceOf (g.deref n).inputs q)
    ∨ (isCase1 g n = true ∧ N = true ∧ next = parts
        ∧ ∀ q ∈ parts, ¬ endsInSourceOf (g.deref n).inputs q) := by
  unfold partitionStep at h
  by_cases hpp : IsNodeOfType .McePostProcessOperationNode (g.deref n) = true
  · rw [if_pos hpp] at h
    cases hin : (g.deref n).inputs with
    | nil => simp [hin] at h
    | cons input0 more =>
      simp only [hin] at h
      by_cases hc : (IsNodeOfType .MceOperationNode (g.deref input0.source)
          && (g.deref input0.source).outputs.length == 1) = true
      · rw [if_pos hc] at h
        have hcase : isCase1 g n = true := by simp [isCase1, hpp, hin, hc]
        rcases FindPartFromSourceAndAddNode_returned h with h1 | h1
        · right; left; rw [hin] at h1; exact ⟨hcase, h1⟩
        · right; right; rw [hin] at h1; exact ⟨hcase, h1⟩
      · rw [if_neg hc] at h
        left
        simp only [Outcome.returned.injEq] at h
        refine ⟨?_, by simp [← h, AddNodeToNewPart, AddNodeToPart]⟩
        simp only [Bool.not_eq_true] at hc
        simp [isCase1, hin, hc]
  · rw [if_neg hpp] at h
    left
    simp only [Outcome.returned.injEq] at h
    refine ⟨?_, by simp [← h, AddNodeToNewPart, AddNodeToPart]⟩
    simp only [Bool.not_eq_true] at hpp
    simp [isCase1, hpp]

/-- Induction over the partitioning loop: a property of (processed nodes, parts) that
every returning iteration preserves holds when the loop returns. -/
theorem partitionLoop_induction {N : Bool} {g : Graph} (Inv : List NodePtr → Parts → Prop)
    (hstep : ∀ done parts n next, Inv done parts →
      partitionStep N g parts n = .returned next → Inv (done ++ [n]) next) :
    ∀ (rest done : List NodePtr) (parts result : Parts), Inv done parts →
      partitionLoop N g rest parts = .returned result → Inv (done ++ rest) result := by
  intro rest
  induction rest with
  | nil =>
    intro done parts result hinv h
    simp only [partitionLoop, Outcome.returned.injEq] at h
    simpa [← h] using hinv
  | cons n rest ih =>
    intro done parts result hinv h
    simp only [partitionLoop] at h
    obtain ⟨next, h1, h2⟩ := Outcome.bind_eq_returned.1 h
    have := ih (done ++ [n]) next result (hstep done parts n next hinv h1) h2
    simpa using this

/-! ## The invariant of the partitioning loop -/

theorem allNodes_append (A B : Parts) : allNodes (A ++ B) = allNodes A ++ allNodes B := by
  induction A with
  | nil => rfl
  | cons p A ih => simp [allNodes, ih]

theorem mem_allNodes {parts : Parts} {n : NodePtr} :
    n ∈ allNodes parts ↔ ∃ p ∈ parts, n ∈ p.m_SubGraph := by
  induction parts with
  | nil => simp [allNodes]
  | cons p rest ih => simp [allNodes, ih]

theorem allNodes_add_perm (A B : Parts) (p : Part) (n : NodePtr) :
    (allNodes (A ++ AddNodeToPart n p :: B)).Perm (allNodes (A ++ p :: B) ++ [n]) := by
  simp only [allNodes_append, allNodes, AddNodeToPart, List.append_assoc]
  refine List.Perm.append_left _ (List.Perm.append_left _ ?_)
  exact List.perm_append_comm

theorem PartShape.push {g : Graph} {p : Part} {n : NodePtr} (hp : PartShape g p.m_SubGraph)
    (hc : isCase1 g n = true) (he : endsInSourceOf (g.deref n).inputs p) :
    PartShape g (AddNodeToPart n p).m_SubGraph := by
  obtain ⟨h, t, hl, hh⟩ := hp.head_new
  refine ⟨⟨h, t ++ [n], by simp [AddNodeToPart, hl], hh⟩, ?_⟩
  simp only [AddNodeToPart]
  refine List.chain'_append.2 ⟨hp.chain, List.chain'_singleton n, ?_⟩
  intro x hx y hy
  simp only [List.head?_cons, Option.mem_def, Option.some.injEq] at hy
  subst hy
  obtain ⟨last, hlast, e, hein, hes⟩ := he
  have : x = last := by
    rw [Option.mem_def, hlast] at hx
    exact (Option.some.inj hx).symm
  subst this
  exact ⟨hc, e, hein, hes⟩

theorem partsInv_nil (g : Graph) : PartsInv g [] [] :=
  ⟨by simp, by simp, by simp [allNodes]⟩

theorem partsInv_step {N : Bool} {g : Graph} (done : List NodePtr) (parts : Parts)
    (n : NodePtr) (next : Parts) (hinv : PartsInv g done parts)
    (h : partitionStep N g parts n = .returned next) : PartsInv g (done ++ [n]) next := by
  rcases partitionStep_returned h with ⟨hc, rfl⟩ | ⟨hc, A, p, B, rfl, rfl, he, -⟩
    | ⟨-, -, rfl, -⟩
  · refine ⟨?_, ?_, ?_⟩
    · intro q hq
      rcases List.mem_append.1 hq with hq | hq
      · exact hinv.shape q hq
      · simp only [List.mem_singleton] at hq
        subst hq
        exact ⟨⟨n, [], rfl, hc⟩, List.chain'_singleton n⟩
    · intro q hq
      rcases List.mem_append.1 hq with hq | hq
      · exact List.sublist_append_of_sublist_left (hinv.sublist q hq)
      · simp only [List.mem_singleton] at hq
        subst hq
        exact List.sublist_append_right done [n]
    · rw [allNodes_append]
      simp only [allNodes, List.append_nil]
      exact (List.subperm_append_right [n]).2 hinv.subperm
  · refine ⟨?_, ?_, ?_⟩
    · intro q hq
      rcases List.mem_append.1 hq with hq | hq
      · exact hinv.shape q (List.mem_append_left _ hq)
      · rcases List.mem_cons.1 hq with rfl | hq
        · exact (hinv.shape p (by simp)).push hc he
        · exact hinv.shape q (List.mem_append_right _ (List.mem_cons_of_mem _ hq))
    · intro q hq
      rcases List.mem_append.1 hq with hq | hq
      · exact List.sublist_append_of_sublist_left (hinv.sublist q (List.mem_append_left _ hq))
      · rcases List.mem_cons.1 hq with rfl | hq
        · exact List.Sublist.append_right (hinv.sublist p (by simp)) [n]
        · exact List.sublist_append_of_sublist_left
            (hinv.sublist q (List.mem_append_right _ (List.mem_cons_of_mem _ hq)))
    · exact ((allNodes_add_perm A B p n).subperm_right).2
        ((List.subperm_append_right [n]).2 hinv.subperm)
  · exact ⟨hinv.shape, fun q hq => List.sublist_append_of_sublist_left (hinv.sublist q hq),
      hinv.subperm.trans (List.sublist_append_left done [n]).subperm⟩

/-- The invariant holds of whatever the loop returns, started from no parts. -/
theorem partitionLoop_inv {N : Bool} {g : Graph} {nodes : List NodePtr} {result : Parts}
    (h : partitionLoop N g nodes [] = .returned result) : PartsInv g nodes result := by
  have := partitionLoop_induction (PartsInv g) partsInv_step nodes [] [] result
    (partsInv_nil g) h
  simpa using this

/-! ## Lemmas on the validation after the loop -/

theorem nodup_foldl_insert (l acc : List NodePtr) (hacc : acc.Nodup) :
    (l.foldl (fun nodes n => List.insert n nodes) acc).Nodup
      ∧ ∀ x, x ∈ l.foldl (fun nodes n => List.insert n nodes) acc ↔ x ∈ acc ∨ x ∈ l := by
  induction l generalizing acc with
  | nil => simp [hacc]
  | cons a l ih =>
    obtain ⟨h1, h2⟩ := ih (List.insert a acc) hacc.insert
    refine ⟨by simpa using h1, fun x => ?_⟩
    simp only [List.foldl_cons, h2, List.mem_insert_iff, List.mem_cons]
    tauto

theorem nodeSet_nodup (g : Graph) : (nodeSet g).Nodup :=
  (nodup_foldl_insert g.GetNodes [] List.nodup_nil).1

theorem mem_nodeSet {g : Graph} {x : NodePtr} : x ∈ nodeSet g ↔ x ∈ g.GetNodes := by
  have := (nodup_foldl_insert g.GetNodes [] List.nodup_nil).2 x
  simpa [nodeSet] using this

theorem foldl_erase (l acc : List NodePtr) (hacc : acc.Nodup) :
    (l.foldl (fun acc2 n => acc2.erase n) acc).Nodup
      ∧ ∀ x, x ∈ l.foldl (fun acc2 n => acc2.erase n) acc ↔ x ∈ acc ∧ x ∉ l := by
  induction l generalizing acc with
  | nil => simp [hacc]
  | cons a l ih =>
    obtain ⟨h1, h2⟩ := ih (acc.erase a) (hacc.erase a)
    refine ⟨by simpa using h1, fun x => ?_⟩
    simp only [List.foldl_cons, h2, hacc.mem_erase_iff, List.mem_cons]
    tauto

theorem eraseAssigned_spec (parts : Parts) (nodes : List NodePtr) (hn : nodes.Nodup) :
    (eraseAssigned parts nodes).Nodup
      ∧ ∀ x, x ∈ eraseAssigned parts nodes ↔ x ∈ nodes ∧ x ∉ allNodes parts := by
  induction parts generalizing nodes with
  | nil => simp [eraseAssigned, allNodes, hn]
  | cons p rest ih =>
    obtain ⟨h1, h2⟩ := foldl_erase p.m_SubGraph nodes hn
    obtain ⟨h3, h4⟩ := ih _ h1
    refine ⟨by simpa [eraseAssigned] using h3, fun x => ?_⟩
    have := h4 x
    simp only [eraseAssigned] at this
    simp only [eraseAssigned, List.foldl_cons, this, h2, allNodes, List.mem_append]
    tauto

/-- The set is empty after the erasures exactly when every node of the graph is in
some part. -/
theorem eraseAssigned_isEmpty {g : Graph} {parts : Parts} :
    (eraseAssigned parts (nodeSet g)).isEmpty = true
      ↔ ∀ n ∈ g.GetNodes, ∃ p ∈ parts, n ∈ p.m_SubGraph := by
  have h := (eraseAssigned_spec parts (nodeSet g) (nodeSet_nodup g)).2
  rw [List.isEmpty_iff, List.eq_nil_iff_forall_not_mem]
  constructor
  · intro hall n hn
    by_contra hc
    exact hall n ((h n).2 ⟨mem_nodeSet.2 hn, fun hm => hc (mem_allNodes.1 hm)⟩)
  · intro hall n hn
    obtain ⟨h1, h2⟩ := (h n).1 hn
    exact h2 (mem_allNodes.2 (hall n (mem_nodeSet.1 h1)))

/-! ## Lemmas on the whole loop -/

theorem partitionLoop_append (N : Bool) (g : Graph) (done rest : List NodePtr) (parts : Parts) :
    partitionLoop N g (done ++ rest) parts
      = (partitionLoop N g done parts).bind fun mid => partitionLoop N g rest mid := by
  induction done generalizing parts with
  | nil => rfl
  | cons n done ih =>
    simp only [List.cons_append, partitionLoop]
    cases partitionStep N g parts n with
    | returned next => simpa [Outcome.bind] using ih next
    | notSupported w => rfl
    | assertionFailed w => rfl
    | undefinedBehaviour w => rfl

theorem findPartRev_ne_notSupported (inputs : List Edge) (n : NodePtr) (w : String) :
    ∀ rev : List Part, findPartRev inputs n rev ≠ .notSupported w
      ∧ findPartRev inputs n rev ≠ .assertionFailed w := by
  intro rev
  induction rev with
  | nil => simp [findPartRev]
  | cons part rest ih =>
    unfold findPartRev
    cases part.m_SubGraph.getLast? with
    | none => simp
    | some last =>
      simp only
      split
      · simp
      · cases hr : findPartRev inputs n rest with
        | returned r => cases r <;> simp
        | notSupported v => rw [hr] at ih; simpa using ih.1
        | assertionFailed v => rw [hr] at ih; simpa using ih.2
        | undefinedBehaviour v => simp

theorem partitionStep_ne_notSupported (N : Bool) (g : Graph) (parts : Parts) (n : NodePtr)
    (w : String) : partitionStep N g parts n ≠ .notSupported w := by
  unfold partitionStep
  split
  · split
    · simp
    · simp only
      split
      · unfold FindPartFromSourceAndAddNode
        cases hr : findPartRev (g.deref n).inputs n parts.reverse with
        | returned r =>
          cases r with
          | none => cases N <;> simp [Outcome.bind]
          | some f => simp [Outcome.bind]
        | notSupported v =>
          exact absurd hr (findPartRev_ne_notSupported _ _ v _).1
        | assertionFailed v => simp [Outcome.bind]
        | undefinedBehaviour v => simp [Outcome.bind]
      · simp
  · simp

theorem partitionLoop_ne_notSupported (N : Bool) (g : Graph) (w : String) :
    ∀ (nodes : List NodePtr) (parts : Parts),
      partitionLoop N g nodes parts ≠ .notSupported w := by
  intro nodes
  induction nodes with
  | nil => intro parts; simp [partitionLoop]
  | cons n rest ih =>
    intro parts
    simp only [partitionLoop]
    cases hs : partitionStep N g parts n with
    | returned next => simpa [Outcome.bind] using ih next
    | notSupported v => exact absurd hs (partitionStep_ne_notSupported N g parts n v)
    | assertionFailed v => simp [Outcome.bind]
    | undefinedBehaviour v => simp [Outcome.bind]

/-- What a returned `GraphOfParts` says about the run. -/
theorem CreateGraphOfParts_returned {N : Bool} {g : Graph} {gop : GraphOfParts}
    (h : CreateGraphOfParts N g = .returned gop) :
    partitionLoop N g g.GetNodesSorted [] = .returned gop.m_Parts
      ∧ ∀ n ∈ g.GetNodes, ∃ p ∈ gop.m_Parts, n ∈ p.m_SubGraph := by
  unfold CreateGraphOfParts at h
  obtain ⟨parts, h1, h2⟩ := Outcome.bind_eq_returned.1 h
  by_cases he : (eraseAssigned parts (nodeSet g)).isEmpty = true
  · simp only [he, Bool.not_true, Bool.false_eq_true, if_false, Outcome.returned.injEq] at h2
    subst h2
    exact ⟨h1, eraseAssigned_isEmpty.1 he⟩
  · simp only [Bool.not_eq_true] at he
    simp [he] at h2

/-! ## Theorems on CreateGraphOfParts -/

theorem Subperm.nodup_of_nodup {l₁ l₂ : List NodePtr} (h : l₁.Subperm l₂) (hn : l₂.Nodup) :
    l₁.Nodup := by
  obtain ⟨l, hperm, hsub⟩ := h
  exact hperm.nodup_iff.1 (hn.sublist hsub)

/-- The concatenation of the node sequences has no duplicate exactly when no sequence
has one and no two parts share a node. -/
theorem allNodes_nodup_iff (parts : Parts) :
    (allNodes parts).Nodup ↔ (∀ p ∈ parts, p.m_SubGraph.Nodup)
      ∧ parts.Pairwise fun p q => ∀ n ∈ p.m_SubGraph, n ∉ q.m_SubGraph := by
  induction parts with
  | nil => simp [allNodes]
  | cons p rest ih =>
    simp only [allNodes, List.nodup_append, ih, List.mem_cons, forall_eq_or_imp,
      List.pairwise_cons, List.Disjoint, mem_allNodes]
    constructor
    · rintro ⟨h1, ⟨h2, h3⟩, h4⟩
      exact ⟨⟨h1, h2⟩, fun q hq n hn hnq => h4 hn ⟨q, hq, hnq⟩, h3⟩
    · rintro ⟨⟨h1, h2⟩, h3, h4⟩
      refine ⟨h1, ⟨h2, h4⟩, ?_⟩
      rintro n hn ⟨q, hq, hnq⟩
      exact h3 q hq n hn hnq

/-- Claim C1. When `GetNodesSorted` lists nodes of the graph, each once, and
`CreateGraphOfParts` returns a `GraphOfParts`, the nodes of all parts together are
exactly the nodes of the graph, no part holds a node twice, and no two parts share a
node. -/
theorem partition_completeness (N : Bool) (g : Graph) (gop : GraphOfParts)
    (hnodup : g.GetNodesSorted.Nodup) (hsorted : ∀ n ∈ g.GetNodesSorted, n ∈ g.GetNodes)
    (h : CreateGraphOfParts N g = .returned gop) :
    (∀ n, (∃ p ∈ gop.m_Parts, n ∈ p.m_SubGraph) ↔ n ∈ g.GetNodes)
      ∧ (∀ p ∈ gop.m_Parts, p.m_SubGraph.Nodup)
      ∧ gop.m_Parts.Pairwise fun p q => ∀ n ∈ p.m_SubGraph, n ∉ q.m_SubGraph := by
  obtain ⟨hloop, hall⟩ := CreateGraphOfParts_returned h
  have hinv := partitionLoop_inv hloop
  refine ⟨fun n => ⟨?_, hall n⟩,
    (allNodes_nodup_iff _).1 (Subperm.nodup_of_nodup hinv.subperm hnodup)⟩
  rintro ⟨p, hp, hn⟩
  exact hsorted n (hinv.subperm.subset (mem_allNodes.2 ⟨p, hp, hn⟩))

theorem partition_completeness_witness :
    chainGraph.GetNodesSorted.Nodup
      ∧ (∀ n ∈ chainGraph.GetNodesSorted, n ∈ chainGraph.GetNodes)
      ∧ CreateGraphOfParts false chainGraph = .returned { m_Parts := [⟨[1]⟩, ⟨[2, 3]⟩] }
      ∧ (∀ n, (∃ p ∈ [(⟨[1]⟩ : Part), ⟨[2, 3]⟩], n ∈ p.m_SubGraph) ↔ n ∈ chainGraph.GetNodes)
      ∧ (∀ p ∈ [(⟨[1]⟩ : Part), ⟨[2, 3]⟩], p.m_SubGraph.Nodup)
      ∧ [(⟨[1]⟩ : Part), ⟨[2, 3]⟩].Pairwise fun p q => ∀ n ∈ p.m_SubGraph, n ∉ q.m_SubGraph :=
  ⟨by decide, by decide, by decide,
    partition_completeness false chainGraph { m_Parts := [⟨[1]⟩, ⟨[2, 3]⟩] }
      (by decide) (by decide) (by decide)⟩

/-- A node that is not a case 1 node is the first node of every part it is in. -/
theorem PartShape.head_of_not_case1 {g : Graph} {l : List NodePtr} (hs : PartShape g l)
    {n : NodePtr} (hn : n ∈ l) (hc : isCase1 g n = false) : l.head? = some n := by
  obtain ⟨pre, post, rfl⟩ := List.append_of_mem hn
  rcases List.eq_nil_or_concat pre with rfl | ⟨front, x, rfl⟩
  · rfl
  · have hch := hs.chain
    rw [List.concat_eq_append, List.append_assoc, List.singleton_append] at hch
    have := (List.chain'_append_cons_cons.1 hch).2.1
    rw [this.1] at hc
    cases hc

/-- A case 1 node is never first in a part, and the node before it is the source of
one of its inputs. -/
theorem PartShape.before_case1 {g : Graph} {pre post : List NodePtr} {n : NodePtr}
    (hs : PartShape g (pre ++ n :: post)) (hc : isCase1 g n = true) :
    ∃ front x, pre = front ++ [x] ∧ ∃ e ∈ (g.deref n).inputs, e.source = x := by
  rcases List.eq_nil_or_concat pre with rfl | ⟨front, x, rfl⟩
  · obtain ⟨h, t, hl, hh⟩ := hs.head_new
    simp only [List.nil_append, List.cons.injEq] at hl
    rw [← hl.1, hc] at hh
    cases hh
  · have hch := hs.chain
    rw [List.concat_eq_append, List.append_assoc, List.singleton_append] at hch
    exact ⟨front, x, List.concat_eq_append _ _, (List.chain'_append_cons_cons.1 hch).2.1.2⟩

/-- Claim C2. When `CreateGraphOfParts` returns, a post-process node of the graph all
of whose inputs come from one producer, an MCE operation node with exactly one output
edge, is in a part, and wherever it stands in a part the producer stands directly
before it. -/
theorem postprocess_colocated (N : Bool) (g : Graph) (gop : GraphOfParts)
    (pp producer : NodePtr)
    (h : CreateGraphOfParts N g = .returned gop)
    (hmem : pp ∈ g.GetNodes)
    (hpp : IsNodeOfType .McePostProcessOperationNode (g.deref pp) = true)
    (hin : (g.deref pp).inputs ≠ [])
    (hsole : ∀ e ∈ (g.deref pp).inputs, e.source = producer)
    (hmce : IsNodeOfType .MceOperationNode (g.deref producer) = true)
    (hone : (g.deref producer).outputs.length = 1) :
    (∃ p ∈ gop.m_Parts, pp ∈ p.m_SubGraph)
      ∧ ∀ p ∈ gop.m_Parts, ∀ pre post, p.m_SubGraph = pre ++ pp :: post →
          ∃ front, pre = front ++ [producer] := by
  obtain ⟨hloop, hall⟩ := CreateGraphOfParts_returned h
  have hinv := partitionLoop_inv hloop
  refine ⟨hall pp hmem, ?_⟩
  intro p hp pre post hsplit
  have hc : isCase1 g pp = true := by
    cases hi : (g.deref pp).inputs with
    | nil => exact absurd hi hin
    | cons input0 more =>
      have h0 : input0.source = producer := hsole input0 (by simp [hi])
      simp [isCase1, hpp, hi, h0, hmce, hone]
  have hs := hinv.shape p hp
  rw [hsplit] at hs
  obtain ⟨front, x, hpre, e, he, hx⟩ := hs.before_case1 hc
  refine ⟨front, ?_⟩
  rw [hpre, ← hx, hsole e he]

theorem postprocess_colocated_witness :
    CreateGraphOfParts false chainGraph = .returned { m_Parts := [⟨[1]⟩, ⟨[2, 3]⟩] }
      ∧ ((∃ p ∈ [(⟨[1]⟩ : Part), ⟨[2, 3]⟩], 3 ∈ p.m_SubGraph)
        ∧ ∀ p ∈ [(⟨[1]⟩ : Part), ⟨[2, 3]⟩], ∀ pre post, p.m_SubGraph = pre ++ 3 :: post →
            ∃ front, pre = front ++ [2]) :=
  ⟨by decide,
    postprocess_colocated false chainGraph { m_Parts := [⟨[1]⟩, ⟨[2, 3]⟩] } 3 2
      (by decide) (by decide) (by decide) (by decide) (by decide) (by decide) (by decide)⟩

/-- In a duplicate-free list, what follows `x` in a sublist follows `x` in the list. -/
theorem sublist_after_of_nodup {x : NodePtr} {post B : List NodePtr} :
    ∀ {A : List NodePtr}, (A ++ x :: B).Nodup → (x :: post).Sublist (A ++ x :: B) →
      post.Sublist B := by
  intro A
  induction A with
  | nil =>
    intro hn hs
    simp only [List.nil_append] at hs hn
    cases hs with
    | cons _ h1 =>
      have : x ∈ B := h1.subset (List.mem_cons_self _ _)
      exact absurd this (List.nodup_cons.1 hn).1
    | cons₂ _ h1 => exact h1
  | cons a A ih =>
    intro hn hs
    simp only [List.cons_append] at hs hn
    cases hs with
    | cons _ h1 => exact ih (List.nodup_cons.1 hn).2 h1
    | cons₂ _ h1 =>
      have : x ∈ A ++ x :: B := by simp
      exact absurd this (List.nodup_cons.1 hn).1

/-- Claim C3. A post-process node of the graph whose first input comes from a node
that is not an MCE operation node, or that has a number of output edges other than
one, opens a part: some part starts with it, it is the first node of every part it is
in, and (the producer being listed before it in the duplicate-free `GetNodesSorted`)
no part holds both it and the producer. -/
theorem postprocess_starts_new_part (N : Bool) (g : Graph) (gop : GraphOfParts)
    (pp : NodePtr) (input0 : Edge) (more : List Edge) (A B : List NodePtr)
    (h : CreateGraphOfParts N g = .returned gop)
    (hmem : pp ∈ g.GetNodes)
    (hpp : IsNodeOfType .McePostProcessOperationNode (g.deref pp) = true)
    (hin : (g.deref pp).inputs = input0 :: more)
    (hcase : IsNodeOfType .MceOperationNode (g.deref input0.source) = false
      ∨ (g.deref input0.source).outputs.length ≠ 1)
    (hnodup : g.GetNodesSorted.Nodup)
    (hsplit : g.GetNodesSorted = A ++ pp :: B)
    (hbefore : input0.source ∈ A) :
    (∃ p ∈ gop.m_Parts, p.m_SubGraph.head? = some pp)
      ∧ ∀ p ∈ gop.m_Parts, pp ∈ p.m_SubGraph →
          p.m_SubGraph.head? = some pp ∧ input0.source ∉ p.m_SubGraph := by
  obtain ⟨hloop, hall⟩ := CreateGraphOfParts_returned h
  have hinv := partitionLoop_inv hloop
  have hc : isCase1 g pp = false := by
    rcases hcase with hm | ho
    · simp [isCase1, hpp, hin, hm]
    · simp [isCase1, hpp, hin, ho]
  have key : ∀ p ∈ gop.m_Parts, pp ∈ p.m_SubGraph →
      p.m_SubGraph.head? = some pp ∧ input0.source ∉ p.m_SubGraph := by
    intro p hp hn
    have hhead := (hinv.shape p hp).head_of_not_case1 hn hc
    refine ⟨hhead, ?_⟩
    intro hsrc
    obtain ⟨post, hpost⟩ : ∃ post, p.m_SubGraph = pp :: post := by
      cases hl : p.m_SubGraph with
      | nil => rw [hl] at hn; cases hn
      | cons a t =>
        rw [hl] at hhead
        simp only [List.head?_cons, Option.some.injEq] at hhead
        exact ⟨t, by rw [hhead]⟩
    have hsub := hinv.sublist p hp
    rw [hpost, hsplit] at hsub
    rw [hsplit] at hnodup
    have hB := (sublist_after_of_nodup hnodup hsub).subset
    have hdis := List.disjoint_of_nodup_append hnodup
    rw [hpost] at hsrc
    rcases List.mem_cons.1 hsrc with heq | hmem2
    · exact hdis hbefore (by rw [heq]; exact List.mem_cons_self _ _)
    · exact hdis hbefore (List.mem_cons_of_mem _ (hB hmem2))
  obtain ⟨p, hp, hn⟩ := hall pp hmem
  exact ⟨⟨p, hp, (key p hp hn).1⟩, key⟩

theorem postprocess_starts_new_part_witness :
    CreateGraphOfParts false forkGraph
        = .returned { m_Parts := [⟨[1]⟩, ⟨[2]⟩, ⟨[3]⟩, ⟨[4]⟩] }
      ∧ (forkGraph.deref 2).outputs.length ≠ 1
      ∧ ((∃ p ∈ [(⟨[1]⟩ : Part), ⟨[2]⟩, ⟨[3]⟩, ⟨[4]⟩], p.m_SubGraph.head? = some 3)
        ∧ ∀ p ∈ [(⟨[1]⟩ : Part), ⟨[2]⟩, ⟨[3]⟩, ⟨[4]⟩], 3 ∈ p.m_SubGraph →
            p.m_SubGraph.head? = some 3 ∧ 2 ∉ p.m_SubGraph) :=
  ⟨by decide, by decide,
    postprocess_starts_new_part false forkGraph { m_Parts := [⟨[1]⟩, ⟨[2]⟩, ⟨[3]⟩, ⟨[4]⟩] }
      3 { source := 2, destination := 3 } [] [1, 2] [4]
      (by decide) (by decide) (by decide) (by decide) (Or.inr (by decide)) (by decide)
      (by decide) (by decide)⟩

/-- Claim C4. When `CreateGraphOfParts` returns, a node that is not a post-process
node is the first node of every part it is in, and there are at least as many parts
as the graph has nodes that are not post-process nodes. -/
theorem regular_nodes_start_parts (N : Bool) (g : Graph) (gop : GraphOfParts)
    (h : CreateGraphOfParts N g = .returned gop) :
    (∀ p ∈ gop.m_Parts, ∀ n ∈ p.m_SubGraph,
        IsNodeOfType .McePostProcessOperationNode (g.deref n) = false →
          p.m_SubGraph.head? = some n)
      ∧ (g.GetNodes.filter fun n =>
          !IsNodeOfType .McePostProcessOperationNode (g.deref n)).toFinset.card
        ≤ gop.m_Parts.length := by
  obtain ⟨hloop, hall⟩ := CreateGraphOfParts_returned h
  have hinv := partitionLoop_inv hloop
  have key : ∀ p ∈ gop.m_Parts, ∀ n ∈ p.m_SubGraph,
      IsNodeOfType .McePostProcessOperationNode (g.deref n) = false →
        p.m_SubGraph.head? = some n := by
    intro p hp n hn hreg
    exact (hinv.shape p hp).head_of_not_case1 hn (by simp [isCase1, hreg])
  refine ⟨key, ?_⟩
  have hsub : (g.GetNodes.filter fun n =>
      !IsNodeOfType .McePostProcessOperationNode (g.deref n)).toFinset
        ⊆ (gop.m_Parts.filterMap fun p => p.m_SubGraph.head?).toFinset := by
    intro n hn
    simp only [List.mem_toFinset, List.mem_filter, Bool.not_eq_eq_eq_not, Bool.not_true] at hn
    obtain ⟨p, hp, hnp⟩ := hall n hn.1
    simp only [List.mem_toFinset, List.mem_filterMap]
    exact ⟨p, hp, key p hp n hnp hn.2⟩
  calc _ ≤ (gop.m_Parts.filterMap fun p => p.m_SubGraph.head?).toFinset.card :=
        Finset.card_le_card hsub
    _ ≤ (gop.m_Parts.filterMap fun p => p.m_SubGraph.head?).length := List.toFinset_card_le _
    _ ≤ gop.m_Parts.length := List.length_filterMap_le _ _

theorem regular_nodes_start_parts_witness :
    CreateGraphOfParts false chainGraph = .returned { m_Parts := [⟨[1]⟩, ⟨[2, 3]⟩] }
      ∧ ((∀ p ∈ [(⟨[1]⟩ : Part), ⟨[2, 3]⟩], ∀ n ∈ p.m_SubGraph,
          IsNodeOfType .McePostProcessOperationNode (chainGraph.deref n) = false →
            p.m_SubGraph.head? = some n)
        ∧ (chainGraph.GetNodes.filter fun n =>
            !IsNodeOfType .McePostProcessOperationNode (chainGraph.deref n)).toFinset.card
          ≤ [(⟨[1]⟩ : Part), ⟨[2, 3]⟩].length) :=
  ⟨by decide,
    regular_nodes_start_parts false chainGraph { m_Parts := [⟨[1]⟩, ⟨[2, 3]⟩] } (by decide)⟩

theorem FindPartFromSourceAndAddNode_ne_undefinedBehaviour (N : Bool) (g : Graph)
    (parts : Parts) (n : NodePtr) (w : String) (hne : ∀ p ∈ parts, p.m_SubGraph ≠ []) :
    FindPartFromSourceAndAddNode N g parts n ≠ .undefinedBehaviour w := by
  unfold FindPartFromSourceAndAddNode
  obtain ⟨r, hr⟩ := @findPartRev_total (g.deref n).inputs n parts.reverse
    (fun q hq => hne q (List.mem_reverse.1 hq))
  rw [hr]
  cases r with
  | none => cases N <;> simp [Outcome.bind]
  | some f => simp [Outcome.bind]

theorem partitionLoop_ne_back (N : Bool) (g : Graph) :
    ∀ (nodes done : List NodePtr) (parts : Parts), PartsInv g done parts →
      partitionLoop N g nodes parts
        ≠ .undefinedBehaviour "m_SubGraph.back() on an empty vector" := by
  intro nodes
  induction nodes with
  | nil => intro done parts _; simp [partitionLoop]
  | cons n rest ih =>
    intro done parts hinv
    simp only [partitionLoop]
    cases hs : partitionStep N g parts n with
    | returned next =>
      simpa [Outcome.bind] using ih (done ++ [n]) next (partsInv_step done parts n next hinv hs)
    | notSupported v => simp [Outcome.bind]
    | assertionFailed v => simp [Outcome.bind]
    | undefinedBehaviour v =>
      simp only [Outcome.bind, ne_eq, Outcome.undefinedBehaviour.injEq]
      rintro rfl
      unfold partitionStep at hs
      split at hs
      · split at hs
        · simp at hs
        · simp only at hs
          split at hs
          · refine FindPartFromSourceAndAddNode_ne_undefinedBehaviour N g parts n _ ?_ hs
            intro p hp hnil
            obtain ⟨a, t, hl, -⟩ := (hinv.shape p hp).head_new
            rw [hnil] at hl
            cases hl
          · simp at hs
      · simp at hs

/-- Claim C5. Whatever nodes the loop has processed, every part it holds has a
non-empty node sequence and the reverse search over these parts never takes `back()`
of an empty sequence; every part of a returned `GraphOfParts` is non-empty, and
`CreateGraphOfParts` never ends in that undefined behaviour. -/
theorem parts_nonempty (N : Bool) (g : Graph) :
    (∀ nodes parts, partitionLoop N g nodes [] = .returned parts →
        (∀ p ∈ parts, p.m_SubGraph ≠ [])
          ∧ ∀ n w, FindPartFromSourceAndAddNode N g parts n ≠ .undefinedBehaviour w)
      ∧ (∀ gop, CreateGraphOfParts N g = .returned gop → ∀ p ∈ gop.m_Parts, p.m_SubGraph ≠ [])
      ∧ CreateGraphOfParts N g
          ≠ .undefinedBehaviour "m_SubGraph.back() on an empty vector" := by
  have hloop : ∀ nodes parts, partitionLoop N g nodes [] = .returned parts →
      ∀ p ∈ parts, p.m_SubGraph ≠ [] := by
    intro nodes parts h p hp hnil
    obtain ⟨a, t, hl, -⟩ := ((partitionLoop_inv h).shape p hp).head_new
    rw [hnil] at hl
    cases hl
  refine ⟨fun nodes parts h => ⟨hloop nodes parts h, fun n w =>
      FindPartFromSourceAndAddNode_ne_undefinedBehaviour N g parts n w (hloop nodes parts h)⟩,
    fun gop h => hloop _ _ (CreateGraphOfParts_returned h).1, ?_⟩
  unfold CreateGraphOfParts
  cases hl : partitionLoop N g g.GetNodesSorted [] with
  | returned parts =>
    simp only [Outcome.bind]
    split <;> simp
  | notSupported v => simp [Outcome.bind]
  | assertionFailed v => simp [Outcome.bind]
  | undefinedBehaviour v =>
    simp only [Outcome.bind, ne_eq, Outcome.undefinedBehaviour.injEq]
    rintro rfl
    exact partitionLoop_ne_back N g _ [] [] (partsInv_nil g) hl

/-- Claim C6. `CreateGraphOfParts` throws `NotSupportedException` exactly when the
loop has run to its end and some node of the graph is in no part, the message then
being "Some nodes could not be assigned to a Part"; when the loop has run to its end
and every node of the graph is in a part, it returns the parts. -/
theorem notSupported_iff_unassigned (N : Bool) (g : Graph) :
    (∀ what, CreateGraphOfParts N g = .notSupported what ↔
        what = "Some nodes could not be assigned to a Part"
          ∧ ∃ parts, partitionLoop N g g.GetNodesSorted [] = .returned parts
            ∧ ∃ n ∈ g.GetNodes, ∀ p ∈ parts, n ∉ p.m_SubGraph)
      ∧ ∀ parts, partitionLoop N g g.GetNodesSorted [] = .returned parts →
          (∀ n ∈ g.GetNodes, ∃ p ∈ parts, n ∈ p.m_SubGraph) →
            CreateGraphOfParts N g = .returned { m_Parts := parts } := by
  refine ⟨fun what => ?_, fun parts hl hall => ?_⟩
  · unfold CreateGraphOfParts
    cases hl : partitionLoop N g g.GetNodesSorted [] with
    | returned parts =>
      simp only [Outcome.bind, Outcome.returned.injEq, exists_eq_left']
      by_cases he : (eraseAssigned parts (nodeSet g)).isEmpty = true
      · have hall := eraseAssigned_isEmpty.1 he
        simp only [he, Bool.not_true, Bool.false_eq_true, if_false]
        constructor
        · intro hc; cases hc
        · rintro ⟨-, n, hn, hnot⟩
          obtain ⟨p, hp, hnp⟩ := hall n hn
          exact absurd hnp (hnot p hp)
      · have hnall := mt eraseAssigned_isEmpty.2 he
        simp only [Bool.not_eq_true] at he
        simp only [he, Bool.not_false, if_true, Outcome.notSupported.injEq]
        constructor
        · intro hw
          refine ⟨hw.symm, ?_⟩
          by_contra hc
          apply hnall
          intro n hn
          by_contra hc2
          exact hc ⟨n, hn, fun p hp hnp => hc2 ⟨p, hp, hnp⟩⟩
        · rintro ⟨hw, -⟩
          exact hw.symm
    | notSupported v => exact absurd hl (partitionLoop_ne_notSupported N g v _ _)
    | assertionFailed v => simp [Outcome.bind]
    | undefinedBehaviour v => simp [Outcome.bind]
  · unfold CreateGraphOfParts
    rw [hl]
    simp [Outcome.bind, eraseAssigned_isEmpty.2 hall]

/-! ## The failed reverse search -/

theorem partitionStep_of_case1 (N : Bool) (g : Graph) (parts : Parts) (n : NodePtr)
    (hc : isCase1 g n = true) :
    partitionStep N g parts n = FindPartFromSourceAndAddNode N g parts n := by
  unfold isCase1 at hc
  unfold partitionStep
  cases hi : (g.deref n).inputs with
  | nil => simp [hi] at hc
  | cons input0 more =>
    simp only [hi, Bool.and_eq_true] at hc
    simp [hc.1, hc.2]

theorem FindPartFromSourceAndAddNode_of_no_match (N : Bool) (g : Graph) (parts : Parts)
    (n : NodePtr) (hne : ∀ p ∈ parts, p.m_SubGraph ≠ [])
    (hno : ∀ q ∈ parts, ¬ endsInSourceOf (g.deref n).inputs q) :
    FindPartFromSourceAndAddNode N g parts n
      = if N then .returned parts
        else .assertionFailed "MCE Post-Process node has not been added to any Part" := by
  unfold FindPartFromSourceAndAddNode
  obtain ⟨r, hr⟩ := @findPartRev_total (g.deref n).inputs n parts.reverse
    (fun q hq => hne q (List.mem_reverse.1 hq))
  cases r with
  | none => rw [hr]; rfl
  | some f =>
    obtain ⟨A, p, B, h1, -, h3, -⟩ := findPartRev_some hr
    have hp : p ∈ parts := by
      have : p ∈ parts.reverse := by rw [h1]; simp
      exact List.mem_reverse.1 this
    exact absurd h3 (hno p hp)

theorem partitionLoop_ne_assertionFailed (g : Graph) (w : String) :
    ∀ (nodes : List NodePtr) (parts : Parts),
      partitionLoop true g nodes parts ≠ .assertionFailed w := by
  intro nodes
  induction nodes with
  | nil => intro parts; simp [partitionLoop]
  | cons n rest ih =>
    intro parts
    simp only [partitionLoop]
    cases hs : partitionStep true g parts n with
    | returned next => simpa [Outcome.bind] using ih next
    | notSupported v => simp [Outcome.bind]
    | undefinedBehaviour v => simp [Outcome.bind]
    | assertionFailed v =>
      exfalso
      unfold partitionStep at hs
      split at hs
      · split at hs
        · simp at hs
        · simp only at hs
          split at hs
          · unfold FindPartFromSourceAndAddNode at hs
            cases hr : findPartRev (g.deref n).inputs n parts.reverse with
            | returned r => cases r <;> simp [hr, Outcome.bind] at hs
            | notSupported u => simp [hr, Outcome.bind] at hs
            | assertionFailed u => exact (findPartRev_ne_notSupported _ _ u _).2 hr
            | undefinedBehaviour u => simp [hr, Outcome.bind] at hs
          · simp at hs
      · simp at hs

/-- Claim C7, as amended. When the loop meets a case 1 node for which the reverse
search finds no part: in a build with assertions the call stops at the failed
assertion; in a build with `NDEBUG` the iteration leaves the parts as they are, no
assertion ever fails, and (the node being a node of the graph that `GetNodesSorted`
lists once) the call ends with `NotSupportedException`, unless a later iteration runs
into undefined behaviour. -/
theorem failed_search_outcome (N : Bool) (g : Graph) (done : List NodePtr) (n : NodePtr)
    (rest : List NodePtr) (parts : Parts) (hs : searchFails N g done n rest parts) :
    (N = false → CreateGraphOfParts N g
        = .assertionFailed "MCE Post-Process node has not been added to any Part")
      ∧ (N = true → partitionStep N g parts n = .returned parts
          ∧ (∀ w, CreateGraphOfParts N g ≠ .assertionFailed w)
          ∧ (g.GetNodesSorted.Nodup → n ∈ g.GetNodes →
              CreateGraphOfParts N g
                  = .notSupported "Some nodes could not be assigned to a Part"
                ∨ ∃ w, CreateGraphOfParts N g = .undefinedBehaviour w)) := by
  obtain ⟨hsplit, hdone, hc, hno⟩ := hs
  have hinv := partitionLoop_inv hdone
  have hne : ∀ p ∈ parts, p.m_SubGraph ≠ [] := by
    intro p hp hnil
    obtain ⟨a, t, hl, -⟩ := (hinv.shape p hp).head_new
    rw [hnil] at hl
    cases hl
  have hstep : partitionStep N g parts n
      = if N then .returned parts
        else .assertionFailed "MCE Post-Process node has not been added to any Part" := by
    rw [partitionStep_of_case1 N g parts n hc]
    exact FindPartFromSourceAndAddNode_of_no_match N g parts n hne hno
  have hloop : partitionLoop N g g.GetNodesSorted []
      = (partitionStep N g parts n).bind fun next => partitionLoop N g rest next := by
    rw [hsplit, partitionLoop_append, hdone]
    rfl
  refine ⟨?_, ?_⟩
  · rintro rfl
    unfold CreateGraphOfParts
    rw [hloop, hstep]
    rfl
  · rintro rfl
    simp only [if_true] at hstep
    have hassert : ∀ w, CreateGraphOfParts true g ≠ .assertionFailed w := by
      intro w hw
      unfold CreateGraphOfParts at hw
      cases hl : partitionLoop true g g.GetNodesSorted [] with
      | returned ps =>
        rw [hl] at hw
        simp only [Outcome.bind] at hw
        split at hw <;> cases hw
      | notSupported v => rw [hl] at hw; cases hw
      | assertionFailed v => exact partitionLoop_ne_assertionFailed g v _ _ hl
      | undefinedBehaviour v => rw [hl] at hw; cases hw
    refine ⟨hstep, hassert, ?_⟩
    · intro hnodup hmem
      have hnot : ∀ gop, CreateGraphOfParts true g ≠ .returned gop := by
        intro gop hret
        obtain ⟨hl, hall⟩ := CreateGraphOfParts_returned hret
        rw [hloop, hstep] at hl
        simp only [Outcome.bind] at hl
        have hfinal := partitionLoop_induction (PartsInv g) partsInv_step rest done parts
          gop.m_Parts hinv hl
        obtain ⟨p, hp, hnp⟩ := hall n hmem
        have hin : n ∈ done ++ rest := hfinal.subperm.subset (mem_allNodes.2 ⟨p, hp, hnp⟩)
        rw [hsplit] at hnodup
        have := (List.nodup_cons.1 (List.nodup_middle.1 hnodup)).1
        exact this hin
      cases hout : CreateGraphOfParts true g with
      | returned gop => exact absurd hout (hnot gop)
      | notSupported v =>
        left
        unfold CreateGraphOfParts at hout
        cases hl : partitionLoop true g g.GetNodesSorted [] with
        | returned ps =>
          rw [hl] at hout
          simp only [Outcome.bind] at hout
          split at hout
          · simp only [Outcome.notSupported.injEq] at hout
            rw [hout]
          · cases hout
        | notSupported u => exact absurd hl (partitionLoop_ne_notSupported true g u _ _)
        | assertionFailed u => rw [hl] at hout; cases hout
        | undefinedBehaviour u => rw [hl] at hout; cases hout
      | assertionFailed v => exact absurd hout (hassert v)
      | undefinedBehaviour v => exact Or.inr ⟨v, rfl⟩

theorem failed_search_outcome_witness :
    searchFails false orphanGraph [] 3 [2] []
      ∧ CreateGraphOfParts false orphanGraph
          = .assertionFailed "MCE Post-Process node has not been added to any Part" :=
  have hs : searchFails false orphanGraph [] 3 [2] [] := ⟨rfl, rfl, by decide, by simp⟩
  ⟨hs, (failed_search_outcome false orphanGraph [] 3 [2] [] hs).1 rfl⟩

/-- Claim C7 fails as stated: in a build with `NDEBUG` the post-process node 3 of
`orphanGraph` is a case 1 node for which the reverse search finds no part, and the
call ends with the recoverable `NotSupportedException`, not with a fatal failure. -/
theorem failed_search_fatal_counterexample :
    searchFails true orphanGraph [] 3 [2] []
      ∧ CreateGraphOfParts true orphanGraph
          = .notSupported "Some nodes could not be assigned to a Part" :=
  ⟨⟨rfl, rfl, by decide, by simp⟩, by decide⟩

/-! ## Lemmas on the estimation loop -/

theorem getElem?_concat_eq_some {α : Type} (D : List α) (c x : α) (j : Nat) :
    (D ++ [c])[j]? = some x ↔ D[j]? = some x ∨ (j = D.length ∧ x = c) := by
  rcases Nat.lt_trichotomy j D.length with h | h | h
  · rw [List.getElem?_append_left h]
    constructor
    · intro h1; exact Or.inl h1
    · rintro (h1 | ⟨h1, -⟩)
      · exact h1
      · omega
  · subst h
    simp [eq_comm]
  · rw [List.getElem?_append_right (by omega)]
    have : j - D.length ≠ 0 := by omega
    have h2 : D[j]? = none := List.getElem?_eq_none (by omega)
    obtain ⟨m, hm⟩ := Nat.exists_eq_succ_of_ne_zero this
    simp [hm, h2]; omega

section EstimateLemmas

variable {Combination OpGraph Perf : Type}

/-- Induction over the estimation loop, the index being the number of combinations
already visited. -/
theorem estimateLoop_induction {est : Estimator Combination OpGraph Perf}
    {gop : GraphOfParts} (Inv : List Combination → EstimateState Perf → Prop)
    (hstep : ∀ visited st comb next, Inv visited st →
      estimateStep est gop st visited.length comb = .returned next →
        Inv (visited ++ [comb]) next) :
    ∀ (rest visited : List Combination) (st result : EstimateState Perf), Inv visited st →
      estimateLoop est gop rest visited.length st = .returned result →
        Inv (visited ++ rest) result := by
  intro rest
  induction rest with
  | nil =>
    intro visited st result hinv h
    simp only [estimateLoop, Outcome.returned.injEq] at h
    simpa [← h] using hinv
  | cons comb rest ih =>
    intro visited st result hinv h
    simp only [estimateLoop] at h
    obtain ⟨next, h1, h2⟩ := Outcome.bind_eq_returned.1 h
    have h3 := ih (visited ++ [comb]) next result (hstep visited st comb next hinv h1)
      (by simpa using h2)
    simpa using h3

/-- The loop returns when every combination is estimated or refused. -/
theorem estimateLoop_returns (est : Estimator Combination OpGraph Perf) (gop : GraphOfParts) :
    ∀ (rest : List Combination) (k : Nat) (st : EstimateState Perf),
      (∀ comb ∈ rest, returnsOrNotSupported est gop comb = true) →
        ∃ result, estimateLoop est gop rest k st = .returned result := by
  intro rest
  induction rest with
  | nil => intro k st _; exact ⟨st, rfl⟩
  | cons comb rest ih =>
    intro k st hall
    have hc := hall comb (List.mem_cons_self _ _)
    have hrest := fun x hx => hall x (List.mem_cons_of_mem _ hx)
    simp only [estimateLoop, estimateStep]
    unfold returnsOrNotSupported at hc
    cases he : estimateCombination est gop comb with
    | returned e =>
      simp only
      split
      · exact ih _ _ hrest
      · exact ih _ _ hrest
    | notSupported w => exact ih _ _ hrest
    | assertionFailed w => simp [he] at hc
    | undefinedBehaviour w => simp [he] at hc

theorem bestSoFar_step {est : Estimator Combination OpGraph Perf} {gop : GraphOfParts}
    (hord : IsStrictTotalOrderOn est.IsLeftMoreDataPerformantThanRight)
    (p0 : Perf) (b0 : Option Nat) (visited : List Combination) (st : EstimateState Perf)
    (comb : Combination) (next : EstimateState Perf)
    (hinv : BestSoFar est gop p0 b0 visited st)
    (h : estimateStep est gop st visited.length comb = .returned next) :
    BestSoFar est gop p0 b0 (visited ++ [comb]) next := by
  unfold BestSoFar at hinv ⊢
  have keep : (∀ perf, estimatedAs est gop comb perf →
      st.bestCombinationIdx.isSome = true
        ∧ est.IsLeftMoreDataPerformantThanRight perf st.m_PerformanceStream = false) →
      BestSoFar est gop p0 b0 (visited ++ [comb]) st := by
    intro hk
    unfold BestSoFar
    rcases hinv with ⟨h1, h2, h3, h4⟩ | ⟨i, best, h1, h2, h3, h4, h5, h6⟩
    · left
      refine ⟨h1, h2, h3, ?_⟩
      intro x hx perf hp
      rcases List.mem_append.1 hx with hx | hx
      · exact h4 x hx perf hp
      · simp only [List.mem_singleton] at hx
        subst hx
        have := (hk perf hp).1
        simp [h1] at this
    · right
      refine ⟨i, best, h1, h2, (getElem?_concat_eq_some _ _ _ _).2 (Or.inl h3), h4, ?_, ?_⟩
      · intro j x perf hj hp
        rcases (getElem?_concat_eq_some _ _ _ _).1 hj with hj | ⟨-, rfl⟩
        · exact h5 j x perf hj hp
        · exact (hk perf hp).2
      · intro j x perf hji hj hp
        rcases (getElem?_concat_eq_some _ _ _ _).1 hj with hj | ⟨hj, -⟩
        · exact h6 j x perf hji hj hp
        · have := (List.getElem?_eq_some.1 h3).1
          omega
  unfold estimateStep at h
  cases he : estimateCombination est gop comb with
  | returned e =>
    simp only [he] at h
    split at h
    · rename_i hcond
      simp only [Outcome.returned.injEq] at h
      subst h
      right
      refine ⟨visited.length, comb, rfl, rfl, List.getElem?_concat_length _ _, ⟨e, he, rfl⟩,
        ?_, ?_⟩
      · intro j x perf hj hp
        simp only
        rcases (getElem?_concat_eq_some _ _ _ _).1 hj with hj | ⟨-, rfl⟩
        · rcases hinv with ⟨-, -, -, h4⟩ | ⟨i, best, h1, -, -, -, h5, -⟩
          · exact absurd hp (h4 x (List.getElem?_mem hj) perf)
          · have hlt : est.IsLeftMoreDataPerformantThanRight e.m_PerfData
                st.m_PerformanceStream = true := by
              simpa [h1] using hcond
            have hold := h5 j x perf hj hp
            by_contra hc
            simp only [Bool.not_eq_false] at hc
            rw [hord.trans _ _ _ hc hlt] at hold
            cases hold
        · obtain ⟨e2, he2, rfl⟩ := hp
          rw [he] at he2
          cases he2
          exact hord.irrefl _
      · intro j x perf hji hj hp
        simp only
        rcases (getElem?_concat_eq_some _ _ _ _).1 hj with hj | ⟨hj, -⟩
        · rcases hinv with ⟨-, -, -, h4⟩ | ⟨i, best, h1, -, -, -, h5, -⟩
          · exact absurd hp (h4 x (List.getElem?_mem hj) perf)
          · have hlt : est.IsLeftMoreDataPerformantThanRight e.m_PerfData
                st.m_PerformanceStream = true := by
              simpa [h1] using hcond
            have hold := h5 j x perf hj hp
            rcases hord.total st.m_PerformanceStream perf with ht | ht | ht
            · exact hord.trans _ _ _ hlt ht
            · rw [← ht]; exact hlt
            · rw [ht] at hold; cases hold
        · omega
    · rename_i hcond
      simp only [Outcome.returned.injEq] at h
      subst h
      apply keep
      intro perf hp
      obtain ⟨e2, he2, rfl⟩ := hp
      rw [he] at he2
      cases he2
      simp only [Bool.or_eq_true, Bool.not_eq_true', not_or, Bool.not_eq_false,
        Bool.not_eq_true] at hcond
      exact hcond
  | notSupported w =>
    simp only [he, Outcome.returned.injEq] at h
    subst h
    apply keep
    intro perf hp
    obtain ⟨e2, he2, -⟩ := hp
    rw [he] at he2
    cases he2
  | assertionFailed w => simp [he] at h
  | undefinedBehaviour w => simp [he] at h

theorem selected_step {est : Estimator Combination OpGraph Perf} {gop : GraphOfParts}
    (p0 : Perf) (b0 : Option Nat) (visited : List Combination) (st : EstimateState Perf)
    (comb : Combination) (next : EstimateState Perf)
    (hinv : Selected est gop p0 b0 visited st)
    (h : estimateStep est gop st visited.length comb = .returned next) :
    Selected est gop p0 b0 (visited ++ [comb]) next := by
  unfold Selected at hinv ⊢
  have keep : (∀ perf, estimatedAs est gop comb perf →
      st.bestCombinationIdx.isSome = true) →
      Selected est gop p0 b0 (visited ++ [comb]) st := by
    intro hk
    unfold Selected
    rcases hinv with ⟨h1, h2, h3, h4⟩ | ⟨i, best, h1, h2, h3, h4⟩
    · left
      refine ⟨h1, h2, h3, ?_⟩
      intro x hx perf hp
      rcases List.mem_append.1 hx with hx | hx
      · exact h4 x hx perf hp
      · simp only [List.mem_singleton] at hx
        subst hx
        have := hk perf hp
        simp [h1] at this
    · right
      exact ⟨i, best, h1, h2, (getElem?_concat_eq_some _ _ _ _).2 (Or.inl h3), h4⟩
  unfold estimateStep at h
  cases he : estimateCombination est gop comb with
  | returned e =>
    simp only [he] at h
    split at h
    · simp only [Outcome.returned.injEq] at h
      subst h
      right
      exact ⟨visited.length, comb, rfl, rfl, List.getElem?_concat_length _ _, ⟨e, he, rfl⟩⟩
    · rename_i hcond
      simp only [Outcome.returned.injEq] at h
      subst h
      apply keep
      intro perf _
      simp only [Bool.or_eq_true, Bool.not_eq_true', not_or, Bool.not_eq_false,
        Bool.not_eq_true] at hcond
      exact hcond.1
  | notSupported w =>
    simp only [he, Outcome.returned.injEq] at h
    subst h
    apply keep
    intro perf hp
    obtain ⟨e2, he2, -⟩ := hp
    rw [he] at he2
    cases he2
  | assertionFailed w => simp [he] at h
  | undefinedBehaviour w => simp [he] at h

/-- The state the loop of `EstimatePerformance` starts from. -/
theorem selected_start (est : Estimator Combination OpGraph Perf) (gop : GraphOfParts)
    (p0 : Perf) (b0 : Option Nat) :
    Selected est gop p0 b0 []
      { m_PerformanceStream := p0, m_BestCombination := b0, bestCombinationIdx := none } :=
  Or.inl ⟨rfl, rfl, rfl, by simp⟩

theorem bestSoFar_start (est : Estimator Combination OpGraph Perf) (gop : GraphOfParts)
    (p0 : Perf) (b0 : Option Nat) :
    BestSoFar est gop p0 b0 []
      { m_PerformanceStream := p0, m_BestCombination := b0, bestCombinationIdx := none } :=
  Or.inl ⟨rfl, rfl, rfl, by simp⟩

/-- What a return of `EstimatePerformance` says: the loop returned, and the two
members are those of its last state. -/
theorem EstimatePerformance_returned {lvl : DebugLevel}
    {est : Estimator Combination OpGraph Perf} {c done : Cascading Combination Perf}
    (h : EstimatePerformance lvl est c = .returned done) :
    ∃ st, estimateLoop est c.m_GraphOfParts c.m_ValidCombinations 0
          { m_PerformanceStream := c.m_PerformanceStream
            m_BestCombination := c.m_BestCombination
            bestCombinationIdx := none } = .returned st
      ∧ done = { c with
          m_PerformanceStream := st.m_PerformanceStream
          m_BestCombination := st.m_BestCombination } := by
  unfold EstimatePerformance at h
  obtain ⟨st, h1, h2⟩ := Outcome.bind_eq_returned.1 h
  refine ⟨st, h1, ?_⟩
  simp only at h2
  split at h2
  · split at h2
    · simpa using h2.symm
    · split at h2
      · cases h2
      · obtain ⟨_, -, h3⟩ := Outcome.bind_eq_returned.1 h2
        simpa using h3.symm
  · simpa using h2.symm

/-- Once the loop has returned, the rest of `EstimatePerformance` returns too: the
combination it estimates again is one the loop has estimated. -/
theorem EstimatePerformance_of_loop (lvl : DebugLevel)
    (est : Estimator Combination OpGraph Perf) (c : Cascading Combination Perf)
    (st : EstimateState Perf)
    (h : estimateLoop est c.m_GraphOfParts c.m_ValidCombinations 0
          { m_PerformanceStream := c.m_PerformanceStream
            m_BestCombination := c.m_BestCombination
            bestCombinationIdx := none } = .returned st) :
    EstimatePerformance lvl est c = .returned { c with
      m_PerformanceStream := st.m_PerformanceStream
      m_BestCombination := st.m_BestCombination } := by
  have hsel := estimateLoop_induction
    (Selected est c.m_GraphOfParts c.m_PerformanceStream c.m_BestCombination)
    (selected_step c.m_PerformanceStream c.m_BestCombination) c.m_ValidCombinations [] _ st
    (selected_start _ _ _ _) h
  simp only [List.nil_append] at hsel
  unfold EstimatePerformance
  rw [h]
  simp only [Outcome.bind]
  split
  · rcases hsel with ⟨h1, -⟩ | ⟨i, best, h1, h2, h3, e, h4, -⟩
    · simp [h1]
    · simp [h1, h2, h3, h4, Outcome.bind]
  · rfl

end EstimateLemmas

/-! ## Theorems on EstimatePerformance -/

section EstimateTheorems

variable {Combination OpGraph Perf : Type}

theorem EstimatePerformance_returns (lvl : DebugLevel)
    (est : Estimator Combination OpGraph Perf) (c : Cascading Combination Perf)
    (hall : ∀ comb ∈ c.m_ValidCombinations,
      returnsOrNotSupported est c.m_GraphOfParts comb = true) :
    ∃ done, EstimatePerformance lvl est c = .returned done := by
  obtain ⟨st, hst⟩ := estimateLoop_returns est c.m_GraphOfParts c.m_ValidCombinations 0
    { m_PerformanceStream := c.m_PerformanceStream
      m_BestCombination := c.m_BestCombination
      bestCombinationIdx := none } hall
  exact ⟨_, EstimatePerformance_of_loop lvl est c st hst⟩

/-- The order facts about whatever `EstimatePerformance` returns. -/
theorem EstimatePerformance_bestSoFar {lvl : DebugLevel}
    {est : Estimator Combination OpGraph Perf} {c done : Cascading Combination Perf}
    (hord : IsStrictTotalOrderOn est.IsLeftMoreDataPerformantThanRight)
    (h : EstimatePerformance lvl est c = .returned done) :
    ∃ idx, BestSoFar est c.m_GraphOfParts c.m_PerformanceStream c.m_BestCombination
      c.m_ValidCombinations
      { m_PerformanceStream := done.m_PerformanceStream
        m_BestCombination := done.m_BestCombination
        bestCombinationIdx := idx } := by
  obtain ⟨st, hst, rfl⟩ := EstimatePerformance_returned h
  have hb := estimateLoop_induction
    (BestSoFar est c.m_GraphOfParts c.m_PerformanceStream c.m_BestCombination)
    (bestSoFar_step hord c.m_PerformanceStream c.m_BestCombination) c.m_ValidCombinations []
    _ st (bestSoFar_start _ _ _ _) hst
  simp only [List.nil_append] at hb
  exact ⟨st.bestCombinationIdx, hb⟩

/-- Claim C8. Let `IsLeftMoreDataPerformantThanRight` be a strict total order and
let at least one combination of the list be estimated.  `EstimatePerformance` returns
when every combination is estimated or refused with `NotSupportedException`; and
whenever it returns, `m_BestCombination` points at a combination of the list that was
estimated with metric `m_PerformanceStream`, and no estimated combination of the list
has a metric strictly more performant than that. -/
theorem best_is_maximal (lvl : DebugLevel) (est : Estimator Combination OpGraph Perf)
    (c : Cascading Combination Perf)
    (hord : IsStrictTotalOrderOn est.IsLeftMoreDataPerformantThanRight)
    (hsome : ∃ comb ∈ c.m_ValidCombinations, ∃ perf,
      estimatedAs est c.m_GraphOfParts comb perf) :
    ((∀ comb ∈ c.m_ValidCombinations,
          returnsOrNotSupported est c.m_GraphOfParts comb = true) →
        ∃ done, EstimatePerformance lvl est c = .returned done)
      ∧ ∀ done, EstimatePerformance lvl est c = .returned done →
          ∃ (i : Nat) (best : Combination),
            GetBestCombination done = some i
              ∧ c.m_ValidCombinations[i]? = some best
              ∧ estimatedAs est c.m_GraphOfParts best done.m_PerformanceStream
              ∧ ∀ comb ∈ c.m_ValidCombinations, ∀ perf,
                  estimatedAs est c.m_GraphOfParts comb perf →
                    est.IsLeftMoreDataPerformantThanRight perf done.m_PerformanceStream
                      = false := by
  refine ⟨EstimatePerformance_returns lvl est c, fun done h => ?_⟩
  obtain ⟨idx, hb⟩ := EstimatePerformance_bestSoFar hord h
  obtain ⟨comb0, hmem0, perf0, hp0⟩ := hsome
  rcases hb with ⟨-, -, -, h4⟩ | ⟨i, best, -, h2, h3, h4, h5, -⟩
  · exact absurd hp0 (h4 comb0 hmem0 perf0)
  · refine ⟨i, best, h2, h3, h4, ?_⟩
    intro comb hmem perf hp
    obtain ⟨j, hj⟩ := List.mem_iff_getElem?.1 hmem
    exact h5 j comb perf hj hp

/-- Claim C9. An estimated combination becomes the best when there is none yet or
when its metric is strictly more performant than the current one, and leaves the state
alone otherwise.  Hence, `IsLeftMoreDataPerformantThanRight` being a strict total
order and some combination being estimated: whenever `EstimatePerformance` returns
(and it does when every combination is estimated or refused), the selected combination
is strictly more performant than every estimated combination before it in the list,
and no combination before it was estimated with the same metric. -/
theorem ties_keep_first (lvl : DebugLevel) (est : Estimator Combination OpGraph Perf)
    (c : Cascading Combination Perf)
    (hord : IsStrictTotalOrderOn est.IsLeftMoreDataPerformantThanRight)
    (hsome : ∃ comb ∈ c.m_ValidCombinations, ∃ perf,
      estimatedAs est c.m_GraphOfParts comb perf) :
    (∀ (st : EstimateState Perf) (k : Nat) (comb : Combination) (e : EstimatedOpGraph Perf),
        estimateCombination est c.m_GraphOfParts comb = .returned e →
          estimateStep est c.m_GraphOfParts st k comb = .returned
            (if st.bestCombinationIdx = none
                ∨ est.IsLeftMoreDataPerformantThanRight e.m_PerfData st.m_PerformanceStream
                  = true then
              { m_PerformanceStream := e.m_PerfData
                m_BestCombination := some k
                bestCombinationIdx := some k }
            else st))
      ∧ ((∀ comb ∈ c.m_ValidCombinations,
            returnsOrNotSupported est c.m_GraphOfParts comb = true) →
          ∃ done, EstimatePerformance lvl est c = .returned done)
      ∧ ∀ done, EstimatePerformance lvl est c = .returned done →
          ∃ (i : Nat) (best : Combination),
            GetBestCombination done = some i
              ∧ c.m_ValidCombinations[i]? = some best
              ∧ estimatedAs est c.m_GraphOfParts best done.m_PerformanceStream
              ∧ (∀ (j : Nat) comb perf, j < i → c.m_ValidCombinations[j]? = some comb →
                  estimatedAs est c.m_GraphOfParts comb perf →
                    est.IsLeftMoreDataPerformantThanRight done.m_PerformanceStream perf
                      = true)
              ∧ ∀ (j : Nat) comb, c.m_ValidCombinations[j]? = some comb →
                  estimatedAs est c.m_GraphOfParts comb done.m_PerformanceStream →
                    i ≤ j := by
  refine ⟨?_, EstimatePerformance_returns lvl est c, fun done h => ?_⟩
  · intro st k comb e he
    unfold estimateStep
    rw [he]
    cases hidx : st.bestCombinationIdx <;>
      cases hlt : est.IsLeftMoreDataPerformantThanRight e.m_PerfData st.m_PerformanceStream <;>
      simp [hidx, hlt]
  · obtain ⟨idx, hb⟩ := EstimatePerformance_bestSoFar hord h
    obtain ⟨comb0, hmem0, perf0, hp0⟩ := hsome
    rcases hb with ⟨-, -, -, h4⟩ | ⟨i, best, -, h2, h3, h4, -, h6⟩
    · exact absurd hp0 (h4 comb0 hmem0 perf0)
    · refine ⟨i, best, h2, h3, h4, h6, ?_⟩
      intro j comb hj hp
      by_contra hlt
      have := h6 j comb _ (by omega) hj hp
      simp only at this
      rw [hord.irrefl] at this
      cases this

theorem withoutNotSupported_append (est : Estimator Combination OpGraph Perf)
    (gop : GraphOfParts) (A B : List Combination) :
    withoutNotSupported est gop (A ++ B)
      = withoutNotSupported est gop A ++ withoutNotSupported est gop B := by
  simp [withoutNotSupported]

theorem SameSelection.extend {est : Estimator Combination OpGraph Perf} {gop : GraphOfParts}
    {p0 : Perf} {b0 : Option Nat} {visited : List Combination} {s s2 : EstimateState Perf}
    (comb : Combination) (h : SameSelection est gop p0 b0 visited s s2)
    (hnone : s.bestCombinationIdx = none → failsNotSupported est gop comb = true) :
    SameSelection est gop p0 b0 (visited ++ [comb]) s s2 := by
  obtain ⟨hp, hsel⟩ := h
  refine ⟨hp, ?_⟩
  rcases hsel with ⟨h1, h2, h3, h4, h5, h6⟩ | ⟨i, best, h1, h2, h3, h4, h5, h6⟩
  · left
    refine ⟨h1, h2, h3, h4, h5, ?_⟩
    intro x hx
    rcases List.mem_append.1 hx with hx | hx
    · exact h6 x hx
    · simp only [List.mem_singleton] at hx
      subst hx
      exact hnone h1
  · right
    have hi : i < visited.length := (List.getElem?_eq_some.1 h5).1
    have hk := (List.getElem?_eq_some.1 h6).1
    have htake : (visited ++ [comb]).take i = visited.take i :=
      List.take_append_of_le_length (Nat.le_of_lt hi)
    refine ⟨i, best, h1, h2, ?_, ?_, ?_, ?_⟩
    · rw [htake]; exact h3
    · rw [htake]; exact h4
    · rw [List.getElem?_append_left hi]; exact h5
    · rw [htake, withoutNotSupported_append, List.getElem?_append_left hk]; exact h6

/-- The loop over a list and the loop over the list without the refused combinations
run in step. -/
theorem estimateLoop_withoutNotSupported (est : Estimator Combination OpGraph Perf)
    (gop : GraphOfParts) (p0 : Perf) (b0 : Option Nat) :
    ∀ (rest visited : List Combination) (st st2 : EstimateState Perf),
      (∀ comb ∈ rest, returnsOrNotSupported est gop comb = true) →
      SameSelection est gop p0 b0 visited st st2 →
        ∃ r r2, estimateLoop est gop rest visited.length st = .returned r
          ∧ estimateLoop est gop (withoutNotSupported est gop rest)
              (withoutNotSupported est gop visited).length st2 = .returned r2
          ∧ SameSelection est gop p0 b0 (visited ++ rest) r r2 := by
  intro rest
  induction rest with
  | nil =>
    intro visited st st2 _ hs
    exact ⟨st, st2, rfl, rfl, by simpa using hs⟩
  | cons comb rest ih =>
    intro visited st st2 hall hs
    have hc := hall comb (List.mem_cons_self _ _)
    have hrest := fun x hx => hall x (List.mem_cons_of_mem _ hx)
    unfold returnsOrNotSupported at hc
    cases he : estimateCombination est gop comb with
    | notSupported w =>
      have hf : failsNotSupported est gop comb = true := by simp [failsNotSupported, he]
      have hs2 := hs.extend comb (fun _ => hf)
      obtain ⟨r, r2, h1, h2, h3⟩ := ih (visited ++ [comb]) st st2 hrest hs2
      refine ⟨r, r2, ?_, ?_, by simpa using h3⟩
      · simp only [estimateLoop, estimateStep, he, Outcome.bind]
        simpa using h1
      · have : withoutNotSupported est gop (comb :: rest) = withoutNotSupported est gop rest := by
          simp [withoutNotSupported, hf]
        rw [this]
        simpa [withoutNotSupported_append, withoutNotSupported, hf] using h2
    | returned e =>
      have hf : failsNotSupported est gop comb = false := by simp [failsNotSupported, he]
      have hkeep : withoutNotSupported est gop (comb :: rest)
          = comb :: withoutNotSupported est gop rest := by
        simp [withoutNotSupported, hf]
      have hlen : (withoutNotSupported est gop (visited ++ [comb])).length
          = (withoutNotSupported est gop visited).length + 1 := by
        simp [withoutNotSupported_append, withoutNotSupported, hf]
      have hsome : st.bestCombinationIdx.isSome = st2.bestCombinationIdx.isSome := by
        rcases hs.2 with ⟨h1, h2, -⟩ | ⟨i, best, h1, -, h3, -⟩
        · simp [h1, h2]
        · simp [h1, h3]
      by_cases hcond : (!st.bestCombinationIdx.isSome
          || est.IsLeftMoreDataPerformantThanRight e.m_PerfData st.m_PerformanceStream) = true
      · have hcond2 : (!st2.bestCombinationIdx.isSome
            || est.IsLeftMoreDataPerformantThanRight e.m_PerfData st2.m_PerformanceStream)
              = true := by
          rw [← hsome, ← hs.1]; exact hcond
        have hs2 : SameSelection est gop p0 b0 (visited ++ [comb])
            { m_PerformanceStream := e.m_PerfData
              m_BestCombination := some visited.length
              bestCombinationIdx := some visited.length }
            { m_PerformanceStream := e.m_PerfData
              m_BestCombination := some (withoutNotSupported est gop visited).length
              bestCombinationIdx := some (withoutNotSupported est gop visited).length } := by
          refine ⟨rfl, Or.inr ⟨visited.length, comb, rfl, rfl, ?_, ?_,
            List.getElem?_concat_length _ _, ?_⟩⟩
          · simp
          · simp
          · have : withoutNotSupported est gop (visited ++ [comb])
                = withoutNotSupported est gop visited ++ [comb] := by
              simp [withoutNotSupported_append, withoutNotSupported, hf]
            simp only [List.take_left' rfl]
            rw [this]
            exact List.getElem?_concat_length _ _
        obtain ⟨r, r2, h1, h2, h3⟩ := ih (visited ++ [comb]) _ _ hrest hs2
        refine ⟨r, r2, ?_, ?_, by simpa using h3⟩
        · simp only [estimateLoop, estimateStep, he, hcond, if_true, Outcome.bind]
          simpa using h1
        · rw [hkeep]
          simp only [estimateLoop, estimateStep, he, hcond2, if_true, Outcome.bind]
          rw [← hlen]
          exact h2
      · have hcond2 : ¬ (!st2.bestCombinationIdx.isSome
            || est.IsLeftMoreDataPerformantThanRight e.m_PerfData st2.m_PerformanceStream)
              = true := by
          rw [← hsome, ← hs.1]; exact hcond
        have hs2 := hs.extend comb (fun hn => by simp [hn] at hcond)
        obtain ⟨r, r2, h1, h2, h3⟩ := ih (visited ++ [comb]) st st2 hrest hs2
        refine ⟨r, r2, ?_, ?_, by simpa using h3⟩
        · simp only [estimateLoop, estimateStep, he, hcond, if_false, Outcome.bind]
          simpa using h1
        · rw [hkeep]
          simp only [estimateLoop, estimateStep, he, hcond2, if_false, Outcome.bind]
          rw [← hlen]
          exact h2
    | assertionFailed w => simp [he] at hc
    | undefinedBehaviour w => simp [he] at hc

/-- Claim C10. When every combination of the list is estimated or refused with
`NotSupportedException`, `EstimatePerformance` returns, and so does it on the list
without the refused combinations; both runs end with the same metric, and either
every combination was refused and both leave `m_BestCombination` and the metric as
they were, or both point at the same combination, which in the shorter list stands at
the number of combinations kept before it. -/
theorem notSupported_skipped (lvl : DebugLevel) (est : Estimator Combination OpGraph Perf)
    (c : Cascading Combination Perf)
    (hall : ∀ comb ∈ c.m_ValidCombinations,
      returnsOrNotSupported est c.m_GraphOfParts comb = true) :
    ∃ done done2,
      EstimatePerformance lvl est c = .returned done
        ∧ EstimatePerformance lvl est { c with
            m_ValidCombinations :=
              withoutNotSupported est c.m_GraphOfParts c.m_ValidCombinations }
          = .returned done2
        ∧ done.m_PerformanceStream = done2.m_PerformanceStream
        ∧ ((GetBestCombination done = c.m_BestCombination
              ∧ GetBestCombination done2 = c.m_BestCombination
              ∧ done.m_PerformanceStream = c.m_PerformanceStream
              ∧ ∀ comb ∈ c.m_ValidCombinations,
                  failsNotSupported est c.m_GraphOfParts comb = true)
          ∨ ∃ (i : Nat) (best : Combination),
              GetBestCombination done = some i
                ∧ GetBestCombination done2 = some
                    (withoutNotSupported est c.m_GraphOfParts
                      (c.m_ValidCombinations.take i)).length
                ∧ c.m_ValidCombinations[i]? = some best
                ∧ (withoutNotSupported est c.m_GraphOfParts c.m_ValidCombinations)[
                    (withoutNotSupported est c.m_GraphOfParts
                      (c.m_ValidCombinations.take i)).length]? = some best) := by
  have hstart : SameSelection est c.m_GraphOfParts c.m_PerformanceStream c.m_BestCombination []
      { m_PerformanceStream := c.m_PerformanceStream
        m_BestCombination := c.m_BestCombination
        bestCombinationIdx := none }
      { m_PerformanceStream := c.m_PerformanceStream
        m_BestCombination := c.m_BestCombination
        bestCombinationIdx := none } :=
    ⟨rfl, Or.inl ⟨rfl, rfl, rfl, rfl, rfl, by simp⟩⟩
  obtain ⟨r, r2, h1, h2, h3, h4⟩ := estimateLoop_withoutNotSupported est c.m_GraphOfParts
    c.m_PerformanceStream c.m_BestCombination c.m_ValidCombinations [] _ _ hall hstart
  simp only [List.nil_append] at h4
  refine ⟨_, _, EstimatePerformance_of_loop lvl est c r (by simpa using h1),
    EstimatePerformance_of_loop lvl est { c with
      m_ValidCombinations := withoutNotSupported est c.m_GraphOfParts c.m_ValidCombinations }
      r2 (by simpa [withoutNotSupported] using h2), h3, ?_⟩
  rcases h4 with ⟨-, -, h5, h6, h7, h8⟩ | ⟨i, best, -, h5, -, h6, h7, h8⟩
  · exact Or.inl ⟨h5, h6, h7, h8⟩
  · exact Or.inr ⟨i, best, h5, h6, h7, h8⟩

end EstimateTheorems

/-- On numbers, "smaller" is a strict total order. -/
theorem sampleEstimator_order :
    IsStrictTotalOrderOn sampleEstimator.IsLeftMoreDataPerformantThanRight :=
  ⟨fun a => by simp [sampleEstimator],
    fun a b c hab hbc => by
      simp only [sampleEstimator, decide_eq_true_eq] at hab hbc ⊢
      omega,
    fun a b => by
      simp only [sampleEstimator, decide_eq_true_eq]
      omega⟩

/-- Combination 15 of the sample list is estimated, with metric 5. -/
theorem sample_estimated :
    ∃ comb ∈ (sampleCascading [15, 200, 13, 23, 7]).m_ValidCombinations, ∃ perf,
      estimatedAs sampleEstimator (sampleCascading [15, 200, 13, 23, 7]).m_GraphOfParts
        comb perf :=
  ⟨15, by decide, 5, ⟨{ m_PerfData := 5 }, rfl, rfl⟩⟩

theorem best_is_maximal_witness :
    IsStrictTotalOrderOn sampleEstimator.IsLeftMoreDataPerformantThanRight
      ∧ (∃ comb ∈ (sampleCascading [15, 200, 13, 23, 7]).m_ValidCombinations, ∃ perf,
          estimatedAs sampleEstimator { m_Parts := [] } comb perf)
      ∧ EstimatePerformance .High sampleEstimator (sampleCascading [15, 200, 13, 23, 7])
          = .returned { sampleCascading [15, 200, 13, 23, 7] with
              m_PerformanceStream := 3, m_BestCombination := some 2 }
      ∧ ∃ (i : Nat) (best : Nat),
          some 2 = some i
            ∧ (sampleCascading [15, 200, 13, 23, 7]).m_ValidCombinations[i]? = some best
            ∧ estimatedAs sampleEstimator { m_Parts := [] } best 3
            ∧ ∀ comb ∈ (sampleCascading [15, 200, 13, 23, 7]).m_ValidCombinations, ∀ perf,
                estimatedAs sampleEstimator { m_Parts := [] } comb perf →
                  sampleEstimator.IsLeftMoreDataPerformantThanRight perf 3 = false :=
  ⟨sampleEstimator_order, sample_estimated, by decide,
    (best_is_maximal .High sampleEstimator (sampleCascading [15, 200, 13, 23, 7])
      sampleEstimator_order sample_estimated).2
      { sampleCascading [15, 200, 13, 23, 7] with
        m_PerformanceStream := 3, m_BestCombination := some 2 } (by decide)⟩

theorem ties_keep_first_witness :
    IsStrictTotalOrderOn sampleEstimator.IsLeftMoreDataPerformantThanRight
      ∧ (∃ comb ∈ (sampleCascading [15, 200, 13, 23, 7]).m_ValidCombinations, ∃ perf,
          estimatedAs sampleEstimator { m_Parts := [] } comb perf)
      ∧ EstimatePerformance .None sampleEstimator (sampleCascading [15, 200, 13, 23, 7])
          = .returned { sampleCascading [15, 200, 13, 23, 7] with
              m_PerformanceStream := 3, m_BestCombination := some 2 }
      ∧ ∃ (i : Nat) (best : Nat),
          some 2 = some i
            ∧ (sampleCascading [15, 200, 13, 23, 7]).m_ValidCombinations[i]? = some best
            ∧ estimatedAs sampleEstimator { m_Parts := [] } best 3
            ∧ (∀ (j : Nat) comb perf, j < i →
                (sampleCascading [15, 200, 13, 23, 7]).m_ValidCombinations[j]? = some comb →
                  estimatedAs sampleEstimator { m_Parts := [] } comb perf →
                    sampleEstimator.IsLeftMoreDataPerformantThanRight 3 perf = true)
            ∧ ∀ (j : Nat) comb,
                (sampleCascading [15, 200, 13, 23, 7]).m_ValidCombinations[j]? = some comb →
                  estimatedAs sampleEstimator { m_Parts := [] } comb 3 → i ≤ j :=
  ⟨sampleEstimator_order, sample_estimated, by decide,
    (ties_keep_first .None sampleEstimator (sampleCascading [15, 200, 13, 23, 7])
      sampleEstimator_order sample_estimated).2.2
      { sampleCascading [15, 200, 13, 23, 7] with
        m_PerformanceStream := 3, m_BestCombination := some 2 } (by decide)⟩

theorem notSupported_skipped_witness :
    (∀ comb ∈ (sampleCascading [15, 200, 13, 23, 7]).m_ValidCombinations,
        returnsOrNotSupported sampleEstimator { m_Parts := [] } comb = true)
      ∧ withoutNotSupported sampleEstimator { m_Parts := [] } [15, 200, 13, 23, 7]
          = [15, 13, 23, 7]
      ∧ ∃ done done2,
          EstimatePerformance .Medium sampleEstimator (sampleCascading [15, 200, 13, 23, 7])
              = .returned done
            ∧ EstimatePerformance .Medium sampleEstimator
                { sampleCascading [15, 200, 13, 23, 7] with
                  m_ValidCombinations :=
                    withoutNotSupported sampleEstimator { m_Parts := [] }
                      [15, 200, 13, 23, 7] }
              = .returned done2
            ∧ done.m_PerformanceStream = done2.m_PerformanceStream
            ∧ ((GetBestCombination done = none ∧ GetBestCombination done2 = none
                  ∧ done.m_PerformanceStream = 0
                  ∧ ∀ comb ∈ [15, 200, 13, 23, 7],
                      failsNotSupported sampleEstimator { m_Parts := [] } comb = true)
              ∨ ∃ (i : Nat) (best : Nat),
                  GetBestCombination done = some i
                    ∧ GetBestCombination done2 = some
                        (withoutNotSupported sampleEstimator { m_Parts := [] }
                          ([15, 200, 13, 23, 7].take i)).length
                    ∧ [15, 200, 13, 23, 7][i]? = some best
                    ∧ (withoutNotSupported sampleEstimator { m_Parts := [] }
                        [15, 200, 13, 23, 7])[
                          (withoutNotSupported sampleEstimator { m_Parts := [] }
                            ([15, 200, 13, 23, 7].take i)).length]? = some best) :=
  ⟨by decide, by decide,
    notSupported_skipped .Medium sampleEstimator (sampleCascading [15, 200, 13, 23, 7])
      (by decide)⟩

/-! ## Lemmas on Cascading::Estimate -/

section EstimateCallLemmas

variable {Combination OpGraph Perf Plans : Type}

/-- The loop of `EstimatePerformance` never ends with `NotSupportedException`: the
`catch` clause swallows it. -/
theorem estimateLoop_ne_notSupported (est : Estimator Combination OpGraph Perf)
    (gop : GraphOfParts) (w : String) :
    ∀ (rest : List Combination) (k : Nat) (st : EstimateState Perf),
      estimateLoop est gop rest k st ≠ .notSupported w := by
  intro rest
  induction rest with
  | nil => intro k st; simp [estimateLoop]
  | cons comb rest ih =>
    intro k st
    simp only [estimateLoop, estimateStep]
    cases he : estimateCombination est gop comb with
    | returned e =>
      simp only
      split
      · exact ih _ _
      · exact ih _ _
    | notSupported v => exact ih _ _
    | assertionFailed v => simp [Outcome.bind]
    | undefinedBehaviour v => simp [Outcome.bind]

theorem EstimatePerformance_ne_notSupported (lvl : DebugLevel)
    (est : Estimator Combination OpGraph Perf) (c : Cascading Combination Perf)
    (w : String) : EstimatePerformance lvl est c ≠ .notSupported w := by
  cases hl : estimateLoop est c.m_GraphOfParts c.m_ValidCombinations 0
      { m_PerformanceStream := c.m_PerformanceStream
        m_BestCombination := c.m_BestCombination
        bestCombinationIdx := none } with
  | returned st => rw [EstimatePerformance_of_loop lvl est c st hl]; simp
  | notSupported v => exact absurd hl (estimateLoop_ne_notSupported est _ v _ _ _)
  | assertionFailed v => unfold EstimatePerformance; rw [hl]; simp [Outcome.bind]
  | undefinedBehaviour v => unfold EstimatePerformance; rw [hl]; simp [Outcome.bind]

/-- The debug level has no influence on `EstimatePerformance`. -/
theorem EstimatePerformance_level (lvl lvl2 : DebugLevel)
    (est : Estimator Combination OpGraph Perf) (c : Cascading Combination Perf) :
    EstimatePerformance lvl est c = EstimatePerformance lvl2 est c := by
  cases hl : estimateLoop est c.m_GraphOfParts c.m_ValidCombinations 0
      { m_PerformanceStream := c.m_PerformanceStream
        m_BestCombination := c.m_BestCombination
        bestCombinationIdx := none } with
  | returned st =>
    rw [EstimatePerformance_of_loop lvl est c st hl,
      EstimatePerformance_of_loop lvl2 est c st hl]
  | notSupported v => unfold EstimatePerformance; rw [hl]; rfl
  | assertionFailed v => unfold EstimatePerformance; rw [hl]; rfl
  | undefinedBehaviour v => unfold EstimatePerformance; rw [hl]; rfl

theorem dumpCombinations_notSupported {est : Estimator Combination OpGraph Perf}
    {gop : GraphOfParts} {w : String} :
    ∀ {combos : List Combination}, dumpCombinations est gop combos = .notSupported w →
      ∃ comb ∈ combos, est.GetOpGraphForCombination comb gop = .notSupported w := by
  intro combos
  induction combos with
  | nil => intro h; simp [dumpCombinations] at h
  | cons comb rest ih =>
    intro h
    simp only [dumpCombinations] at h
    cases hg : est.GetOpGraphForCombination comb gop with
    | returned og =>
      rw [hg] at h
      obtain ⟨x, hx, hxw⟩ := ih (by simpa [Outcome.bind] using h)
      exact ⟨x, List.mem_cons_of_mem _ hx, hxw⟩
    | notSupported v =>
      rw [hg] at h
      simp only [Outcome.bind, Outcome.notSupported.injEq] at h
      exact ⟨comb, List.mem_cons_self _ _, by rw [hg, h]⟩
    | assertionFailed v => rw [hg] at h; simp [Outcome.bind] at h
    | undefinedBehaviour v => rw [hg] at h; simp [Outcome.bind] at h

theorem dumpCombinations_returned {est : Estimator Combination OpGraph Perf}
    {gop : GraphOfParts} :
    ∀ {combos : List Combination},
      (∀ comb ∈ combos, ∃ og, est.GetOpGraphForCombination comb gop = .returned og) →
        dumpCombinations est gop combos = .returned () := by
  intro combos
  induction combos with
  | nil => intro _; rfl
  | cons comb rest ih =>
    intro h
    obtain ⟨og, hog⟩ := h comb (List.mem_cons_self _ _)
    simp only [dumpCombinations, hog, Outcome.bind]
    exact ih fun x hx => h x (List.mem_cons_of_mem _ hx)

/-- `Estimate` once partitioning, plan creation and `Combine` have returned. -/
theorem Estimate_of_combine (N : Bool) (lvl : DebugLevel) (planner : Planner Combination Plans)
    (est : Estimator Combination OpGraph Perf) (graph : Graph)
    (c : Cascading Combination Perf) {gop : GraphOfParts} {plans : List Plans}
    {combos : List Combination}
    (hgop : CreateGraphOfParts N graph = .returned gop)
    (hplans : CreatePlans planner.PartCreatePlans gop.m_Parts = .returned plans)
    (hcomb : planner.Combine gop plans = .returned combos) :
    Estimate N lvl planner est graph c
      = (if DebugLevel.High.toNat ≤ lvl.toNat then dumpCombinations est gop combos
          else .returned ()).bind fun _ =>
          if combos.isEmpty then .notSupported "No valid combinations were found."
          else
            (EstimatePerformance lvl est
                { c with m_GraphOfParts := gop, m_ValidCombinations := combos }).bind
              fun done => .returned (done.m_PerformanceStream, done) := by
  unfold Estimate
  rw [hgop]
  simp only [Outcome.bind]
  rw [hplans]
  simp only [Outcome.bind]
  rw [hcomb]

/-- With no combination, `Estimate` throws before any estimation. -/
theorem Estimate_of_no_combination (N : Bool) (lvl : DebugLevel)
    (planner : Planner Combination Plans) (est : Estimator Combination OpGraph Perf)
    (graph : Graph) (c : Cascading Combination Perf) {gop : GraphOfParts}
    {plans : List Plans}
    (hgop : CreateGraphOfParts N graph = .returned gop)
    (hplans : CreatePlans planner.PartCreatePlans gop.m_Parts = .returned plans)
    (hcomb : planner.Combine gop plans = .returned []) :
    Estimate N lvl planner est graph c
      = .notSupported "No valid combinations were found." := by
  rw [Estimate_of_combine N lvl planner est graph c hgop hplans hcomb]
  split <;> simp [dumpCombinations, Outcome.bind]

/-- With a combination, a `NotSupportedException` out of `Estimate` can only come
from `GetOpGraphForCombination` in the dump loop of debug level `High`. -/
theorem Estimate_notSupported_of_combination {N : Bool} {lvl : DebugLevel}
    {planner : Planner Combination Plans} {est : Estimator Combination OpGraph Perf}
    {graph : Graph} {c : Cascading Combination Perf} {gop : GraphOfParts}
    {plans : List Plans} {combos : List Combination} {w : String}
    (hgop : CreateGraphOfParts N graph = .returned gop)
    (hplans : CreatePlans planner.PartCreatePlans gop.m_Parts = .returned plans)
    (hcomb : planner.Combine gop plans = .returned combos)
    (hne : combos ≠ [])
    (h : Estimate N lvl planner est graph c = .notSupported w) :
    lvl = .High ∧ ∃ comb ∈ combos, est.GetOpGraphForCombination comb gop = .notSupported w := by
  rw [Estimate_of_combine N lvl planner est graph c hgop hplans hcomb] at h
  have hempty : combos.isEmpty = false := by
    cases combos with
    | nil => exact absurd rfl hne
    | cons a t => rfl
  simp only [hempty, Bool.false_eq_true, if_false] at h
  have hrest : ∀ u : Unit, ((fun _ : Unit =>
      (EstimatePerformance lvl est
          { c with m_GraphOfParts := gop, m_ValidCombinations := combos }).bind
        fun done => Outcome.returned (done.m_PerformanceStream, done)) u)
      ≠ .notSupported w := by
    intro _ hc
    simp only at hc
    cases hp : EstimatePerformance lvl est
        { c with m_GraphOfParts := gop, m_ValidCombinations := combos } with
    | returned done => rw [hp] at hc; simp [Outcome.bind] at hc
    | notSupported v => exact EstimatePerformance_ne_notSupported lvl est _ v hp
    | assertionFailed v => rw [hp] at hc; simp [Outcome.bind] at hc
    | undefinedBehaviour v => rw [hp] at hc; simp [Outcome.bind] at hc
  by_cases hl : DebugLevel.High.toNat ≤ lvl.toNat
  · rw [if_pos hl] at h
    have hlvl : lvl = .High := by
      cases lvl <;> simp [DebugLevel.toNat] at hl ⊢
    refine ⟨hlvl, ?_⟩
    cases hd : dumpCombinations est gop combos with
    | returned u => rw [hd] at h; exact absurd h (hrest u)
    | notSupported v =>
      rw [hd] at h
      simp only [Outcome.bind, Outcome.notSupported.injEq] at h
      subst h
      exact dumpCombinations_notSupported hd
    | assertionFailed v => rw [hd] at h; simp [Outcome.bind] at h
    | undefinedBehaviour v => rw [hd] at h; simp [Outcome.bind] at h
  · rw [if_neg hl] at h
    exact absurd h (hrest ())

end EstimateCallLemmas

/-! ## Theorems on Cascading::Estimate -/

section EstimateCallTheorems

variable {Combination OpGraph Perf Plans : Type}

/-- Claim C11. Let partitioning, plan creation and `Combine` return.  When `Combine`
returns no combination, `Estimate` throws `NotSupportedException("No valid
combinations were found.")`, whatever the estimator: nothing is estimated.  When it
returns some, a `NotSupportedException` out of `Estimate` does not come from that
`throw`: it can only be one thrown by `GetOpGraphForCombination` in the dump loop of
debug level `High`; so `Estimate` does not end with that message unless
`GetOpGraphForCombination` throws it. -/
theorem no_valid_combinations (N : Bool) (lvl : DebugLevel)
    (planner : Planner Combination Plans) (est : Estimator Combination OpGraph Perf)
    (graph : Graph) (c : Cascading Combination Perf) (gop : GraphOfParts)
    (plans : List Plans) (combos : List Combination)
    (hgop : CreateGraphOfParts N graph = .returned gop)
    (hplans : CreatePlans planner.PartCreatePlans gop.m_Parts = .returned plans)
    (hcomb : planner.Combine gop plans = .returned combos) :
    (combos = [] → ∀ est2 : Estimator Combination OpGraph Perf,
        Estimate N lvl planner est2 graph c
          = .notSupported "No valid combinations were found.")
      ∧ (combos ≠ [] → ∀ w, Estimate N lvl planner est graph c = .notSupported w →
          lvl = .High
            ∧ ∃ comb ∈ combos, est.GetOpGraphForCombination comb gop = .notSupported w)
      ∧ (combos ≠ [] →
          (∀ comb ∈ combos, est.GetOpGraphForCombination comb gop
            ≠ .notSupported "No valid combinations were found.") →
          Estimate N lvl planner est graph c
            ≠ .notSupported "No valid combinations were found.") := by
  refine ⟨?_, ?_, ?_⟩
  · rintro rfl est2
    exact Estimate_of_no_combination N lvl planner est2 graph c hgop hplans hcomb
  · intro hne w h
    exact Estimate_notSupported_of_combination hgop hplans hcomb hne h
  · intro hne hno h
    obtain ⟨-, comb, hmem, hw⟩ := Estimate_notSupported_of_combination hgop hplans hcomb hne h
    exact hno comb hmem hw

theorem estimateLoop_all_refused (est : Estimator Combination OpGraph Perf)
    (gop : GraphOfParts) :
    ∀ (rest : List Combination) (k : Nat) (st : EstimateState Perf),
      (∀ comb ∈ rest, failsNotSupported est gop comb = true) →
        estimateLoop est gop rest k st = .returned st := by
  intro rest
  induction rest with
  | nil => intro k st _; rfl
  | cons comb rest ih =>
    intro k st h
    have hc := h comb (List.mem_cons_self _ _)
    unfold failsNotSupported at hc
    simp only [estimateLoop, estimateStep]
    cases he : estimateCombination est gop comb with
    | returned e => simp [he] at hc
    | notSupported w =>
      simp only [Outcome.bind]
      exact ih _ _ fun x hx => h x (List.mem_cons_of_mem _ hx)
    | assertionFailed w => simp [he] at hc
    | undefinedBehaviour w => simp [he] at hc

/-- Claim C12, as amended. Let partitioning, plan creation and `Combine` return, the
set of valid combinations be non-empty and the estimation of every one of them end
with `NotSupportedException` (at debug level `High`, let `GetOpGraphForCombination`
return for each, so that the dump loop gets through).  Then `Estimate` does not fail:
it returns the performance data the object held before the call and leaves
`m_BestCombination` as it was. -/
theorem all_estimations_refused (N : Bool) (lvl : DebugLevel)
    (planner : Planner Combination Plans) (est : Estimator Combination OpGraph Perf)
    (graph : Graph) (c : Cascading Combination Perf) (gop : GraphOfParts)
    (plans : List Plans) (combos : List Combination)
    (hgop : CreateGraphOfParts N graph = .returned gop)
    (hplans : CreatePlans planner.PartCreatePlans gop.m_Parts = .returned plans)
    (hcomb : planner.Combine gop plans = .returned combos)
    (hne : combos ≠ [])
    (hfail : ∀ comb ∈ combos, failsNotSupported est gop comb = true)
    (hdump : lvl = .High →
      ∀ comb ∈ combos, ∃ og, est.GetOpGraphForCombination comb gop = .returned og) :
    Estimate N lvl planner est graph c
      = .returned (c.m_PerformanceStream,
          { m_GraphOfParts := gop
            m_ValidCombinations := combos
            m_PerformanceStream := c.m_PerformanceStream
            m_BestCombination := c.m_BestCombination }) := by
  rw [Estimate_of_combine N lvl planner est graph c hgop hplans hcomb]
  have hempty : combos.isEmpty = false := by
    cases combos with
    | nil => exact absurd rfl hne
    | cons a t => rfl
  have hperf : EstimatePerformance lvl est
      { c with m_GraphOfParts := gop, m_ValidCombinations := combos }
      = .returned
          { m_GraphOfParts := gop
            m_ValidCombinations := combos
            m_PerformanceStream := c.m_PerformanceStream
            m_BestCombination := c.m_BestCombination } :=
    EstimatePerformance_of_loop lvl est
      { c with m_GraphOfParts := gop, m_ValidCombinations := combos } _
      (estimateLoop_all_refused est gop combos 0 _ hfail)
  have hd : (if DebugLevel.High.toNat ≤ lvl.toNat then dumpCombinations est gop combos
      else Outcome.returned ()) = .returned () := by
    split
    · rename_i hl
      have hlvl : lvl = .High := by
        cases lvl <;> simp [DebugLevel.toNat] at hl ⊢
      exact dumpCombinations_returned (hdump hlvl)
    · rfl
  rw [hd]
  simp only [Outcome.bind, hempty, Bool.false_eq_true, if_false, hperf]

/-- What a return of `Estimate` says about the run. -/
theorem Estimate_returned {N : Bool} {lvl : DebugLevel} {planner : Planner Combination Plans}
    {est : Estimator Combination OpGraph Perf} {graph : Graph}
    {c done : Cascading Combination Perf} {report : Perf}
    (h : Estimate N lvl planner est graph c = .returned (report, done)) :
    ∃ gop plans combos,
      CreateGraphOfParts N graph = .returned gop
        ∧ CreatePlans planner.PartCreatePlans gop.m_Parts = .returned plans
        ∧ planner.Combine gop plans = .returned combos
        ∧ combos ≠ []
        ∧ EstimatePerformance lvl est
            { c with m_GraphOfParts := gop, m_ValidCombinations := combos } = .returned done
        ∧ report = done.m_PerformanceStream := by
  unfold Estimate at h
  obtain ⟨gop, hgop, h⟩ := Outcome.bind_eq_returned.1 h
  obtain ⟨plans, hplans, h⟩ := Outcome.bind_eq_returned.1 h
  obtain ⟨combos, hcomb, h⟩ := Outcome.bind_eq_returned.1 h
  obtain ⟨_, -, h⟩ := Outcome.bind_eq_returned.1 h
  refine ⟨gop, plans, combos, hgop, hplans, hcomb, ?_⟩
  cases combos with
  | nil => simp at h
  | cons a t =>
    simp only [List.isEmpty_cons, Bool.false_eq_true, if_false] at h
    obtain ⟨d, hd, h⟩ := Outcome.bind_eq_returned.1 h
    simp only [Outcome.returned.injEq, Prod.mk.injEq] at h
    obtain ⟨h1, h2⟩ := h
    subst h2
    exact ⟨by simp, hd, h1.symm⟩

/-- What `EstimatePerformance` returns points at an estimated combination whenever
the list holds one. -/
theorem EstimatePerformance_selected {lvl : DebugLevel}
    {est : Estimator Combination OpGraph Perf} {c done : Cascading Combination Perf}
    (h : EstimatePerformance lvl est c = .returned done)
    (hsome : ∃ comb ∈ c.m_ValidCombinations, ∃ perf,
      estimatedAs est c.m_GraphOfParts comb perf) :
    done.m_GraphOfParts = c.m_GraphOfParts
      ∧ done.m_ValidCombinations = c.m_ValidCombinations
      ∧ ∃ (i : Nat) (best : Combination),
          done.m_BestCombination = some i
            ∧ c.m_ValidCombinations[i]? = some best
            ∧ estimatedAs est c.m_GraphOfParts best done.m_PerformanceStream := by
  obtain ⟨st, hst, rfl⟩ := EstimatePerformance_returned h
  have hsel := estimateLoop_induction
    (Selected est c.m_GraphOfParts c.m_PerformanceStream c.m_BestCombination)
    (selected_step c.m_PerformanceStream c.m_BestCombination) c.m_ValidCombinations [] _ st
    (selected_start _ _ _ _) hst
  simp only [List.nil_append] at hsel
  refine ⟨rfl, rfl, ?_⟩
  obtain ⟨comb0, hmem0, perf0, hp0⟩ := hsome
  rcases hsel with ⟨-, -, -, h4⟩ | ⟨i, best, -, h2, h3, h4⟩
  · exact absurd hp0 (h4 comb0 hmem0 perf0)
  · exact ⟨i, best, h2, h3, h4⟩

/-- Claim C13. Whenever `Estimate` returns a report and at least one of the valid
combinations was estimated, the object holds the parts of the graph and the list
`Combine` returned, `GetBestCombination` points at an element of that list, and the
report, which is `m_PerformanceStream`, is the metric estimation gives for that
element. -/
theorem report_is_metric_of_best (N : Bool) (lvl : DebugLevel)
    (planner : Planner Combination Plans) (est : Estimator Combination OpGraph Perf)
    (graph : Graph) (c done : Cascading Combination Perf) (report : Perf)
    (h : Estimate N lvl planner est graph c = .returned (report, done))
    (hsome : ∃ comb ∈ done.m_ValidCombinations, ∃ perf,
      estimatedAs est done.m_GraphOfParts comb perf) :
    (∃ plans, CreateGraphOfParts N graph = .returned done.m_GraphOfParts
        ∧ CreatePlans planner.PartCreatePlans done.m_GraphOfParts.m_Parts = .returned plans
        ∧ planner.Combine done.m_GraphOfParts plans = .returned done.m_ValidCombinations)
      ∧ report = done.m_PerformanceStream
      ∧ ∃ (i : Nat) (best : Combination),
          GetBestCombination done = some i
            ∧ done.m_ValidCombinations[i]? = some best
            ∧ estimatedAs est done.m_GraphOfParts best report := by
  obtain ⟨gop, plans, combos, hgop, hplans, hcomb, -, hperf, hrep⟩ := Estimate_returned h
  obtain ⟨st, -, hdone⟩ := EstimatePerformance_returned hperf
  have hg : done.m_GraphOfParts = gop := by rw [hdone]
  have hv : done.m_ValidCombinations = combos := by rw [hdone]
  rw [hg, hv] at hsome
  obtain ⟨-, -, i, best, h1, h2, h3⟩ := EstimatePerformance_selected hperf hsome
  rw [hg, hv, hrep]
  exact ⟨⟨plans, hgop, hplans, hcomb⟩, rfl, i, best, h1, h2, h3⟩

/-- Below debug level `High` the level has no influence on `Estimate`. -/
theorem Estimate_None_eq_Medium (N : Bool) (planner : Planner Combination Plans)
    (est : Estimator Combination OpGraph Perf) (graph : Graph)
    (c : Cascading Combination Perf) :
    Estimate N .None planner est graph c = Estimate N .Medium planner est graph c := by
  unfold Estimate
  simp only [DebugLevel.toNat, Nat.not_succ_le_zero, if_false, Nat.reduceLeDiff]
  congr 1
  funext gop
  congr 1
  funext plans
  congr 1
  funext combos
  rw [EstimatePerformance_level .None .Medium]

/-- Before the first estimated combination the loop of `EstimatePerformance` reads
neither `m_PerformanceStream` nor `m_BestCombination`: started without a best from two
states, it ends the same way when some combination is estimated. -/
theorem estimateLoop_fresh (est : Estimator Combination OpGraph Perf) (gop : GraphOfParts) :
    ∀ (rest : List Combination) (k : Nat) (st st2 : EstimateState Perf),
      st.bestCombinationIdx = none → st2.bestCombinationIdx = none →
      (∃ comb ∈ rest, ∃ perf, estimatedAs est gop comb perf) →
        estimateLoop est gop rest k st = estimateLoop est gop rest k st2 := by
  intro rest
  induction rest with
  | nil => intro k st st2 _ _ h; obtain ⟨_, hm, -⟩ := h; cases hm
  | cons comb rest ih =>
    intro k st st2 h1 h2 hsome
    simp only [estimateLoop, estimateStep]
    cases he : estimateCombination est gop comb with
    | returned e => simp [h1, h2]
    | notSupported w =>
      simp only [Outcome.bind]
      apply ih _ _ _ h1 h2
      obtain ⟨x, hx, perf, e, hxe, hp⟩ := hsome
      rcases List.mem_cons.1 hx with rfl | hx
      · rw [he] at hxe; cases hxe
      · exact ⟨x, hx, perf, e, hxe, hp⟩
    | assertionFailed w => rfl
    | undefinedBehaviour w => rfl

theorem EstimatePerformance_fresh (lvl : DebugLevel)
    (est : Estimator Combination OpGraph Perf) (c c2 : Cascading Combination Perf)
    (gop : GraphOfParts) (combos : List Combination)
    (hsome : ∃ comb ∈ combos, ∃ perf, estimatedAs est gop comb perf) :
    EstimatePerformance lvl est { c with m_GraphOfParts := gop, m_ValidCombinations := combos }
      = EstimatePerformance lvl est
          { c2 with m_GraphOfParts := gop, m_ValidCombinations := combos } := by
  have hloop := estimateLoop_fresh est gop combos 0
    { m_PerformanceStream := c.m_PerformanceStream
      m_BestCombination := c.m_BestCombination
      bestCombinationIdx := none }
    { m_PerformanceStream := c2.m_PerformanceStream
      m_BestCombination := c2.m_BestCombination
      bestCombinationIdx := none } rfl rfl hsome
  cases hl : estimateLoop est gop combos 0
      { m_PerformanceStream := c2.m_PerformanceStream
        m_BestCombination := c2.m_BestCombination
        bestCombinationIdx := none } with
  | returned st =>
    rw [hl] at hloop
    rw [EstimatePerformance_of_loop lvl est
        { c with m_GraphOfParts := gop, m_ValidCombinations := combos } st hloop,
      EstimatePerformance_of_loop lvl est
        { c2 with m_GraphOfParts := gop, m_ValidCombinations := combos } st hl]
  | notSupported w =>
    rw [hl] at hloop
    unfold EstimatePerformance
    simp only [hloop, hl, Outcome.bind]
  | assertionFailed w =>
    rw [hl] at hloop
    unfold EstimatePerformance
    simp only [hloop, hl, Outcome.bind]
  | undefinedBehaviour w =>
    rw [hl] at hloop
    unfold EstimatePerformance
    simp only [hloop, hl, Outcome.bind]

/-- Claim C15, as amended. Suppose that whenever the call gets to estimate a non-empty
list of valid combinations, at least one of them is estimated.  Then the outcome of
`Estimate` (the failure, or the report and the whole object after the call) is the
same from any two states of the object, so it does not depend on earlier calls. -/
theorem estimate_independent_of_earlier_calls (N : Bool) (lvl : DebugLevel)
    (planner : Planner Combination Plans) (est : Estimator Combination OpGraph Perf)
    (graph : Graph) (c c2 : Cascading Combination Perf)
    (hsome : ∀ gop plans combos, CreateGraphOfParts N graph = .returned gop →
      CreatePlans planner.PartCreatePlans gop.m_Parts = .returned plans →
      planner.Combine gop plans = .returned combos → combos ≠ [] →
        ∃ comb ∈ combos, ∃ perf, estimatedAs est gop comb perf) :
    Estimate N lvl planner est graph c = Estimate N lvl planner est graph c2 := by
  cases hgop : CreateGraphOfParts N graph with
  | returned gop =>
    cases hplans : CreatePlans planner.PartCreatePlans gop.m_Parts with
    | returned plans =>
      cases hcomb : planner.Combine gop plans with
      | returned combos =>
        rw [Estimate_of_combine N lvl planner est graph c hgop hplans hcomb,
          Estimate_of_combine N lvl planner est graph c2 hgop hplans hcomb]
        cases combos with
        | nil => rfl
        | cons a t =>
          rw [EstimatePerformance_fresh lvl est c c2 gop (a :: t)
            (hsome gop plans (a :: t) hgop hplans hcomb (by simp))]
      | notSupported w => unfold Estimate; simp only [hgop, hplans, hcomb, Outcome.bind]
      | assertionFailed w => unfold Estimate; simp only [hgop, hplans, hcomb, Outcome.bind]
      | undefinedBehaviour w => unfold Estimate; simp only [hgop, hplans, hcomb, Outcome.bind]
    | notSupported w => unfold Estimate; simp only [hgop, hplans, Outcome.bind]
    | assertionFailed w => unfold Estimate; simp only [hgop, hplans, Outcome.bind]
    | undefinedBehaviour w => unfold Estimate; simp only [hgop, hplans, Outcome.bind]
  | notSupported w => unfold Estimate; simp only [hgop, Outcome.bind]
  | assertionFailed w => unfold Estimate; simp only [hgop, Outcome.bind]
  | undefinedBehaviour w => unfold Estimate; simp only [hgop, Outcome.bind]

end EstimateCallTheorems

theorem no_valid_combinations_witness :
    CreateGraphOfParts false emptyGraph = .returned { m_Parts := [] }
      ∧ CreatePlans samplePlanner.PartCreatePlans [] = .returned []
      ∧ samplePlanner.Combine { m_Parts := [] } [] = .returned []
      ∧ Estimate false .High samplePlanner sampleEstimator emptyGraph (Cascading.construct 0)
          = .notSupported "No valid combinations were found." :=
  ⟨by decide, rfl, rfl,
    (no_valid_combinations false .High samplePlanner sampleEstimator emptyGraph
      (Cascading.construct 0) { m_Parts := [] } [] [] (by decide) rfl rfl).1 rfl
      sampleEstimator⟩

theorem all_estimations_refused_witness :
    CreateGraphOfParts false forkGraph
        = .returned { m_Parts := [⟨[1]⟩, ⟨[2]⟩, ⟨[3]⟩, ⟨[4]⟩] }
      ∧ samplePlanner.Combine { m_Parts := [⟨[1]⟩, ⟨[2]⟩, ⟨[3]⟩, ⟨[4]⟩] } [1, 1, 1, 1]
          = .returned [200, 300]
      ∧ (∀ comb ∈ [200, 300],
          failsNotSupported strictEstimator { m_Parts := [⟨[1]⟩, ⟨[2]⟩, ⟨[3]⟩, ⟨[4]⟩] } comb
            = true)
      ∧ Estimate false .High samplePlanner strictEstimator forkGraph (Cascading.construct 0)
          = .returned (0,
              { m_GraphOfParts := { m_Parts := [⟨[1]⟩, ⟨[2]⟩, ⟨[3]⟩, ⟨[4]⟩] }
                m_ValidCombinations := [200, 300]
                m_PerformanceStream := 0
                m_BestCombination := none }) :=
  ⟨by decide, rfl, by decide,
    all_estimations_refused false .High samplePlanner strictEstimator forkGraph
      (Cascading.construct 0) { m_Parts := [⟨[1]⟩, ⟨[2]⟩, ⟨[3]⟩, ⟨[4]⟩] } [1, 1, 1, 1]
      [200, 300] (by decide) (by decide) rfl (by decide) (by decide)
      (fun _ comb _ => ⟨comb, rfl⟩)⟩

/-- Claim C12 fails as stated: `Combine` returns the two combinations 200 and 300 for
`forkGraph`, the estimation of both ends with `NotSupportedException`, and `Estimate`
returns a report (the default-constructed data of the fresh object) instead of
failing. -/
theorem all_estimations_fail_counterexample :
    samplePlanner.Combine { m_Parts := [⟨[1]⟩, ⟨[2]⟩, ⟨[3]⟩, ⟨[4]⟩] } [1, 1, 1, 1]
        = .returned [200, 300]
      ∧ (∀ comb ∈ [200, 300],
          estimateCombination strictEstimator
              { m_Parts := [⟨[1]⟩, ⟨[2]⟩, ⟨[3]⟩, ⟨[4]⟩] } comb
            = .notSupported "not estimated")
      ∧ Estimate false .None samplePlanner strictEstimator forkGraph (Cascading.construct 0)
          = .returned (0,
              { m_GraphOfParts := { m_Parts := [⟨[1]⟩, ⟨[2]⟩, ⟨[3]⟩, ⟨[4]⟩] }
                m_ValidCombinations := [200, 300]
                m_PerformanceStream := 0
                m_BestCombination := none }) :=
  ⟨rfl, by decide, by decide⟩

theorem report_is_metric_of_best_witness :
    Estimate false .Medium samplePlanner sampleEstimator chainGraph (Cascading.construct 0)
        = .returned (3,
            { m_GraphOfParts := { m_Parts := [⟨[1]⟩, ⟨[2, 3]⟩] }
              m_ValidCombinations := [15, 200, 13, 23, 7]
              m_PerformanceStream := 3
              m_BestCombination := some 2 })
      ∧ (∃ comb ∈ [15, 200, 13, 23, 7], ∃ perf,
          estimatedAs sampleEstimator { m_Parts := [⟨[1]⟩, ⟨[2, 3]⟩] } comb perf)
      ∧ ∃ (i : Nat) (best : Nat),
          some 2 = some i
            ∧ [15, 200, 13, 23, 7][i]? = some best
            ∧ estimatedAs sampleEstimator { m_Parts := [⟨[1]⟩, ⟨[2, 3]⟩] } best 3 :=
  ⟨by decide, ⟨15, by decide, 5, ⟨{ m_PerfData := 5 }, rfl, rfl⟩⟩,
    (report_is_metric_of_best false .Medium samplePlanner sampleEstimator chainGraph
      (Cascading.construct 0)
      { m_GraphOfParts := { m_Parts := [⟨[1]⟩, ⟨[2, 3]⟩] }
        m_ValidCombinations := [15, 200, 13, 23, 7]
        m_PerformanceStream := 3
        m_BestCombination := some 2 } 3 (by decide)
      ⟨15, by decide, 5, ⟨{ m_PerfData := 5 }, rfl, rfl⟩⟩).2.2⟩

/-- Claim C14 fails on the code: with the valid combinations 15, 200, 13, 23, 7, of
which `GetOpGraphForCombination` refuses 200, `Estimate` ends with that
`NotSupportedException` at debug level `High`, where the dump loop lowers every
combination outside any `try`, and returns the report 3 with best combination 13 at
the levels `None` and `Medium`, where the refusal is caught and skipped. -/
theorem debug_level_changes_outcome :
    Estimate false .High samplePlanner sampleEstimator chainGraph (Cascading.construct 0)
        = .notSupported "no op graph"
      ∧ Estimate false .None samplePlanner sampleEstimator chainGraph (Cascading.construct 0)
        = .returned (3,
            { m_GraphOfParts := { m_Parts := [⟨[1]⟩, ⟨[2, 3]⟩] }
              m_ValidCombinations := [15, 200, 13, 23, 7]
              m_PerformanceStream := 3
              m_BestCombination := some 2 })
      ∧ Estimate false .Medium samplePlanner sampleEstimator chainGraph (Cascading.construct 0)
        = .returned (3,
            { m_GraphOfParts := { m_Parts := [⟨[1]⟩, ⟨[2, 3]⟩] }
              m_ValidCombinations := [15, 200, 13, 23, 7]
              m_PerformanceStream := 3
              m_BestCombination := some 2 }) :=
  ⟨by decide, by decide, by decide⟩

/-- Whenever `Estimate` on `chainGraph` gets to estimate, combination 15 is there and
is estimated. -/
theorem chainGraph_some_estimated :
    ∀ gop plans combos, CreateGraphOfParts false chainGraph = .returned gop →
      CreatePlans samplePlanner.PartCreatePlans gop.m_Parts = .returned plans →
      samplePlanner.Combine gop plans = .returned combos → combos ≠ [] →
        ∃ comb ∈ combos, ∃ perf, estimatedAs strictEstimator gop comb perf := by
  intro gop plans combos hgop _ hcomb _
  have h0 : CreateGraphOfParts false chainGraph
      = .returned { m_Parts := [⟨[1]⟩, ⟨[2, 3]⟩] } := by decide
  rw [h0] at hgop
  cases hgop
  cases hcomb
  exact ⟨15, by decide, 5, ⟨{ m_PerfData := 5 }, rfl, rfl⟩⟩

theorem estimate_independent_of_earlier_calls_witness :
    Estimate false .None samplePlanner strictEstimator chainGraph usedCascading
        = .returned (3,
            { m_GraphOfParts := { m_Parts := [⟨[1]⟩, ⟨[2, 3]⟩] }
              m_ValidCombinations := [15, 200, 13, 23, 7]
              m_PerformanceStream := 3
              m_BestCombination := some 2 })
      ∧ Estimate false .None samplePlanner strictEstimator chainGraph (Cascading.construct 0)
        = Estimate false .None samplePlanner strictEstimator chainGraph usedCascading :=
  ⟨by decide,
    estimate_independent_of_earlier_calls false .None samplePlanner strictEstimator
      chainGraph (Cascading.construct 0) usedCascading chainGraph_some_estimated⟩

/-- Claim C15 fails as stated: a first call on `chainGraph` leaves the report 3 and a
pointer to element 2 in the object; a second call on `forkGraph`, none of whose
combinations is estimated, then returns that report and keeps that pointer, whereas
the same call on a fresh object returns the default report 0 and a null pointer. -/
theorem earlier_call_persists_counterexample :
    Estimate false .None samplePlanner strictEstimator chainGraph (Cascading.construct 0)
        = .returned (3,
            { m_GraphOfParts := { m_Parts := [⟨[1]⟩, ⟨[2, 3]⟩] }
              m_ValidCombinations := [15, 200, 13, 23, 7]
              m_PerformanceStream := 3
              m_BestCombination := some 2 })
      ∧ Estimate false .None samplePlanner strictEstimator forkGraph
          { m_GraphOfParts := { m_Parts := [⟨[1]⟩, ⟨[2, 3]⟩] }
            m_ValidCombinations := [15, 200, 13, 23, 7]
            m_PerformanceStream := 3
            m_BestCombination := some 2 }
        = .returned (3,
            { m_GraphOfParts := { m_Parts := [⟨[1]⟩, ⟨[2]⟩, ⟨[3]⟩, ⟨[4]⟩] }
              m_ValidCombinations := [200, 300]
              m_PerformanceStream := 3
              m_BestCombination := some 2 })
      ∧ Estimate false .None samplePlanner strictEstimator forkGraph (Cascading.construct 0)
        = .returned (0,
            { m_GraphOfParts := { m_Parts := [⟨[1]⟩, ⟨[2]⟩, ⟨[3]⟩, ⟨[4]⟩] }
              m_ValidCombinations := [200, 300]
              m_PerformanceStream := 0
              m_BestCombination := none }) :=
  ⟨by decide, by decide, by decide⟩

/-! ## Theorems on particular graphs -/

/-- `CreateGraphOfParts` returns the parts of the loop when they hold every node of
the graph. -/
theorem CreateGraphOfParts_of_loop {N : Bool} {g : Graph} {parts : Parts}
    (hl : partitionLoop N g g.GetNodesSorted [] = .returned parts)
    (hall : ∀ n ∈ g.GetNodes, ∃ p ∈ parts, n ∈ p.m_SubGraph) :
    CreateGraphOfParts N g = .returned { m_Parts := parts } := by
  unfold CreateGraphOfParts
  rw [hl]
  simp [Outcome.bind, eraseAssigned_isEmpty.2 hall]

/-- Claim C16. For a graph with no nodes `CreateGraphOfParts` returns a
`GraphOfParts` without parts. -/
theorem empty_graph_no_parts (N : Bool) (g : Graph) (hnodes : g.GetNodes = [])
    (hsorted : g.GetNodesSorted = []) :
    CreateGraphOfParts N g = .returned { m_Parts := [] } := by
  apply CreateGraphOfParts_of_loop
  · rw [hsorted]; rfl
  · rw [hnodes]; simp

theorem empty_graph_no_parts_witness :
    emptyGraph.GetNodes = [] ∧ emptyGraph.GetNodesSorted = []
      ∧ CreateGraphOfParts true emptyGraph = .returned { m_Parts := [] } :=
  ⟨rfl, rfl, empty_graph_no_parts true emptyGraph rfl rfl⟩

section EmptyGraph

variable {Combination OpGraph Perf Plans : Type}

/-- Claim C17, as amended. For a graph with no nodes, partitioning and plan creation
return nothing to plan, and `Estimate` stands and falls with `Combine`: when `Combine`
returns no combination for the `GraphOfParts` without parts, `Estimate` ends with
`NotSupportedException("No valid combinations were found.")`; when it returns some and
the debug level is below `High`, `Estimate` does not end with a
`NotSupportedException`. -/
theorem empty_graph_estimate (N : Bool) (lvl : DebugLevel)
    (planner : Planner Combination Plans) (est : Estimator Combination OpGraph Perf)
    (g : Graph) (c : Cascading Combination Perf) (combos : List Combination)
    (hnodes : g.GetNodes = []) (hsorted : g.GetNodesSorted = [])
    (hcomb : planner.Combine { m_Parts := [] } [] = .returned combos) :
    (combos = [] →
        Estimate N lvl planner est g c = .notSupported "No valid combinations were found.")
      ∧ (combos ≠ [] → lvl ≠ .High →
          ∀ w, Estimate N lvl planner est g c ≠ .notSupported w) := by
  have hgop : CreateGraphOfParts N g = .returned { m_Parts := [] } := by
    apply CreateGraphOfParts_of_loop
    · rw [hsorted]; rfl
    · rw [hnodes]; simp
  have hplans : CreatePlans planner.PartCreatePlans
      ({ m_Parts := [] } : GraphOfParts).m_Parts = .returned [] := rfl
  refine ⟨?_, ?_⟩
  · rintro rfl
    exact Estimate_of_no_combination N lvl planner est g c hgop hplans hcomb
  · intro hne hlvl w h
    exact hlvl (Estimate_notSupported_of_combination hgop hplans hcomb hne h).1

end EmptyGraph

theorem empty_graph_estimate_witness :
    emptyGraph.GetNodes = [] ∧ emptyGraph.GetNodesSorted = []
      ∧ singlePlanner.Combine { m_Parts := [] } [] = .returned [15]
      ∧ Estimate false .Medium singlePlanner sampleEstimator emptyGraph (Cascading.construct 0)
          = .returned (5,
              { m_GraphOfParts := { m_Parts := [] }
                m_ValidCombinations := [15]
                m_PerformanceStream := 5
                m_BestCombination := some 0 })
      ∧ ∀ w, Estimate false .Medium singlePlanner sampleEstimator emptyGraph
          (Cascading.construct 0) ≠ .notSupported w :=
  ⟨rfl, rfl, rfl, by decide,
    (empty_graph_estimate false .Medium singlePlanner sampleEstimator emptyGraph
      (Cascading.construct 0) [15] rfl rfl rfl).2 (by decide) (by decide)⟩

/-- Claim C17 fails as stated: for the graph with no nodes and a `Combine` that
returns no combination for the `GraphOfParts` without parts, `Estimate` ends with the
`NotSupportedException` of the empty check. -/
theorem empty_graph_not_supported_counterexample :
    emptyGraph.GetNodes = []
      ∧ CreateGraphOfParts false emptyGraph = .returned { m_Parts := [] }
      ∧ samplePlanner.Combine { m_Parts := [] } [] = .returned []
      ∧ Estimate false .None samplePlanner sampleEstimator emptyGraph (Cascading.construct 0)
          = .notSupported "No valid combinations were found." :=
  ⟨rfl, by decide, rfl, by decide⟩

/-- Claim C18. For the chain `a -> b -> c` listed in this order, where `a` and `b` are
not post-process nodes, `b` is an MCE operation node with a single output edge, and
`c` is a post-process node whose only input comes from `b`, `CreateGraphOfParts`
returns exactly the two parts `[a]` and `[b, c]`, in this order. -/
theorem chain_two_parts (N : Bool) (g : Graph) (a b c : NodePtr) (input0 : Edge)
    (hsorted : g.GetNodesSorted = [a, b, c])
    (hnodes : ∀ n ∈ g.GetNodes, n = a ∨ n = b ∨ n = c)
    (ha : IsNodeOfType .McePostProcessOperationNode (g.deref a) = false)
    (hb : IsNodeOfType .McePostProcessOperationNode (g.deref b) = false)
    (hmce : IsNodeOfType .MceOperationNode (g.deref b) = true)
    (hone : (g.deref b).outputs.length = 1)
    (hc : IsNodeOfType .McePostProcessOperationNode (g.deref c) = true)
    (hin : (g.deref c).inputs = [input0])
    (hsrc : input0.source = b) :
    CreateGraphOfParts N g = .returned { m_Parts := [⟨[a]⟩, ⟨[b, c]⟩] } := by
  apply CreateGraphOfParts_of_loop
  · rw [hsorted]
    cases N <;>
      simp [partitionLoop, partitionStep, ha, hb, hc, hin, hsrc, hmce, hone,
        FindPartFromSourceAndAddNode, findPartRev, AddNodeToNewPart, AddNodeToPart,
        Outcome.bind]
  · intro n hn
    rcases hnodes n hn with rfl | rfl | rfl <;> simp

theorem chain_two_parts_witness :
    chainGraph.GetNodesSorted = [1, 2, 3]
      ∧ (chainGraph.deref 2).outputs.length = 1
      ∧ (chainGraph.deref 3).inputs = [{ source := 2, destination := 3 }]
      ∧ CreateGraphOfParts false chainGraph = .returned { m_Parts := [⟨[1]⟩, ⟨[2, 3]⟩] } :=
  ⟨rfl, by decide, by decide,
    chain_two_parts false chainGraph 1 2 3 { source := 2, destination := 3 } rfl
      (by decide) (by decide) (by decide) (by decide) (by decide) (by decide) (by decide)
      rfl⟩

/-- The scenario of claim C19: for the chain `a -> b -> c` in which the MCE operation
node `b` has two output edges, `CreateGraphOfParts` returns the three parts `[a]`,
`[b]` and `[c]`. -/
theorem chain_two_consumers_three_parts (N : Bool) (g : Graph) (a b c : NodePtr)
    (input0 : Edge) (more : List Edge)
    (hsorted : g.GetNodesSorted = [a, b, c])
    (hnodes : ∀ n ∈ g.GetNodes, n = a ∨ n = b ∨ n = c)
    (ha : IsNodeOfType .McePostProcessOperationNode (g.deref a) = false)
    (hb : IsNodeOfType .McePostProcessOperationNode (g.deref b) = false)
    (htwo : (g.deref b).outputs.length = 2)
    (hin : (g.deref c).inputs = input0 :: more)
    (hsrc : input0.source = b) :
    CreateGraphOfParts N g = .returned { m_Parts := [⟨[a]⟩, ⟨[b]⟩, ⟨[c]⟩] } := by
  apply CreateGraphOfParts_of_loop
  · rw [hsorted]
    cases hc : IsNodeOfType .McePostProcessOperationNode (g.deref c) <;>
      simp [partitionLoop, partitionStep, ha, hb, hc, hin, hsrc, htwo,
        AddNodeToNewPart, AddNodeToPart, Outcome.bind]
  · intro n hn
    rcases hnodes n hn with rfl | rfl | rfl <;> simp

/-- Claim C19 fails on the code. The scenario holds: the chain whose MCE node has two
output edges gives the parts `[1]`, `[2]`, `[3]`.  The general rule does not: in
`twoProducerGraph` the post-process node 3 has the inputs `1 -> 3` and `2 -> 3`; its
first producer, MCE node 1, has a single output, so the reverse search runs, and it
appends node 3 to the most recent part whose last node is the source of any input,
which is the part of MCE node 2, a producer with two output edges. -/
theorem postprocess_joins_multi_output_producer :
    CreateGraphOfParts false twoConsumerChain
        = .returned { m_Parts := [⟨[1]⟩, ⟨[2]⟩, ⟨[3]⟩] }
      ∧ IsNodeOfType .McePostProcessOperationNode (twoProducerGraph.deref 3) = true
      ∧ (twoProducerGraph.deref 3).inputs
          = [{ source := 1, destination := 3 }, { source := 2, destination := 3 }]
      ∧ (twoProducerGraph.deref 2).outputs.length = 2
      ∧ CreateGraphOfParts false twoProducerGraph
          = .returned { m_Parts := [⟨[1]⟩, ⟨[2, 3]⟩, ⟨[4]⟩] }
      ∧ CreateGraphOfParts true twoProducerGraph
          = .returned { m_Parts := [⟨[1]⟩, ⟨[2, 3]⟩, ⟨[4]⟩] } :=
  ⟨by decide, by decide, by decide, by decide, by decide, by decide⟩

/-! ## Theorems on the shape and order of the parts -/

/-- Claim C22 fails on the code. In `twoProducerGraph` the post-process node 3 is a
case 1 node: the source of its first input is MCE node 1, which has a single output.
The reverse search visits the part `[2]` first and finds that node 2 is the source of
the second input, so it appends node 3 to the part of node 2, a part that does not
hold the tested producer 1. -/
theorem postprocess_leaves_tested_producer :
    isCase1 twoProducerGraph 3 = true
      ∧ ((twoProducerGraph.deref 3).inputs.head?.map fun e => e.source) = some 1
      ∧ partitionLoop false twoProducerGraph [1, 2] [] = .returned [⟨[1]⟩, ⟨[2]⟩]
      ∧ FindPartFromSourceAndAddNode false twoProducerGraph [⟨[1]⟩, ⟨[2]⟩] 3
          = .returned [⟨[1]⟩, ⟨[2, 3]⟩]
      ∧ FindPartFromSourceAndAddNode true twoProducerGraph [⟨[1]⟩, ⟨[2]⟩] 3
          = .returned [⟨[1]⟩, ⟨[2, 3]⟩]
      ∧ CreateGraphOfParts false twoProducerGraph
          = .returned { m_Parts := [⟨[1]⟩, ⟨[2, 3]⟩, ⟨[4]⟩] }
      ∧ (1 : NodePtr) ∉ ({ m_SubGraph := [2, 3] } : Part).m_SubGraph :=
  ⟨by decide, by decide, by decide, by decide, by decide, by decide, by decide⟩

/-- The first nodes of the parts stay in the order in which the loop met them. -/
theorem heads_sublist {N : Bool} {g : Graph} {nodes : List NodePtr} {result : Parts}
    (h : partitionLoop N g nodes [] = .returned result) : (heads result).Sublist nodes := by
  have key := partitionLoop_induction
    (fun done parts => PartsInv g done parts ∧ (heads parts).Sublist done)
    (by
      intro done parts n next hinv hstep
      refine ⟨partsInv_step done parts n next hinv.1 hstep, ?_⟩
      rcases partitionStep_returned hstep with ⟨-, rfl⟩ | ⟨-, A, p, B, rfl, rfl, -, -⟩
        | ⟨-, -, rfl, -⟩
      · simp only [heads, List.filterMap_append, List.filterMap_cons, List.head?_cons,
          List.filterMap_nil]
        exact List.Sublist.append hinv.2 (List.Sublist.refl _)
      · have hne : p.m_SubGraph ≠ [] := by
          intro hnil
          obtain ⟨a, t, hl, -⟩ := (hinv.1.shape p (by simp)).head_new
          rw [hnil] at hl
          cases hl
        have hhead : (AddNodeToPart n p).m_SubGraph.head? = p.m_SubGraph.head? :=
          List.head?_append_of_ne_nil _ hne
        have heq : heads (A ++ AddNodeToPart n p :: B) = heads (A ++ p :: B) := by
          simp only [heads, List.filterMap_append, List.filterMap_cons, hhead]
        rw [heq]
        exact List.sublist_append_of_sublist_left hinv.2
      · exact List.sublist_append_of_sublist_left hinv.2)
    nodes [] [] result ⟨partsInv_nil g, by simp [heads]⟩ h
  simpa using key.2

/-- Claim C25. In every part `CreateGraphOfParts` returns, a node that follows another
is a post-process node with an input edge whose source is the node directly before it,
and the first nodes of the parts, in part order, form a sublist of `GetNodesSorted`:
they keep its relative order. -/
theorem parts_linked_and_ordered (N : Bool) (g : Graph) (gop : GraphOfParts)
    (h : CreateGraphOfParts N g = .returned gop) :
    (∀ p ∈ gop.m_Parts, ∀ pre a b post, p.m_SubGraph = pre ++ a :: b :: post →
        IsNodeOfType .McePostProcessOperationNode (g.deref b) = true
          ∧ ∃ e ∈ (g.deref b).inputs, e.source = a)
      ∧ (heads gop.m_Parts).Sublist g.GetNodesSorted
      ∧ (heads gop.m_Parts).length = gop.m_Parts.length := by
  obtain ⟨hloop, -⟩ := CreateGraphOfParts_returned h
  have hinv := partitionLoop_inv hloop
  refine ⟨?_, heads_sublist hloop, ?_⟩
  · intro p hp pre a b post hsplit
    have hch := (hinv.shape p hp).chain
    rw [hsplit] at hch
    obtain ⟨hc, he⟩ := (List.chain'_append_cons_cons.1 hch).2.1
    refine ⟨?_, he⟩
    unfold isCase1 at hc
    simp only [Bool.and_eq_true] at hc
    exact hc.1
  · have hall : ∀ ps : Parts, (∀ p ∈ ps, p.m_SubGraph ≠ []) →
        (heads ps).length = ps.length := by
      intro ps
      induction ps with
      | nil => intro _; rfl
      | cons q rest ih =>
        intro hne
        have hq := hne q (List.mem_cons_self _ _)
        cases hl : q.m_SubGraph with
        | nil => exact absurd hl hq
        | cons a t =>
          have := ih fun x hx => hne x (List.mem_cons_of_mem _ hx)
          simp only [heads, List.filterMap_cons, hl, List.head?_cons, List.length_cons]
          simpa [heads] using this
    apply hall
    intro p hp hnil
    obtain ⟨a, t, hl, -⟩ := (hinv.shape p hp).head_new
    rw [hnil] at hl
    cases hl

theorem parts_linked_and_ordered_witness :
    CreateGraphOfParts false chainGraph = .returned { m_Parts := [⟨[1]⟩, ⟨[2, 3]⟩] }
      ∧ heads [⟨[1]⟩, ⟨[2, 3]⟩] = [1, 2]
      ∧ ((∀ p ∈ [(⟨[1]⟩ : Part), ⟨[2, 3]⟩], ∀ pre a b post,
            p.m_SubGraph = pre ++ a :: b :: post →
              IsNodeOfType .McePostProcessOperationNode (chainGraph.deref b) = true
                ∧ ∃ e ∈ (chainGraph.deref b).inputs, e.source = a)
        ∧ (heads [⟨[1]⟩, ⟨[2, 3]⟩]).Sublist chainGraph.GetNodesSorted
        ∧ (heads [⟨[1]⟩, ⟨[2, 3]⟩]).length = [(⟨[1]⟩ : Part), ⟨[2, 3]⟩].length) :=
  ⟨by decide, by decide,
    parts_linked_and_ordered false chainGraph { m_Parts := [⟨[1]⟩, ⟨[2, 3]⟩] } (by decide)⟩

/-- What the case 1 test says of a node with a single input. -/
theorem isCase1_single_input {g : Graph} {b : NodePtr} {e : Edge}
    (hc : isCase1 g b = true) (hin : (g.deref b).inputs = [e]) :
    IsNodeOfType .McePostProcessOperationNode (g.deref b) = true
      ∧ IsNodeOfType .MceOperationNode (g.deref e.source) = true
      ∧ (g.deref e.source).outputs.length = 1 := by
  unfold isCase1 at hc
  rw [hin] at hc
  simpa [Bool.and_eq_true, and_assoc] using hc

/-- Claim C24. Let `GetNodesSorted` list nodes of the graph, every post-process node
of the graph have exactly one input edge, and no MCE operation node of the graph be a
post-process node.  Then every part `CreateGraphOfParts` returns has one node, or two:
an MCE operation node with exactly one output edge, which is not a post-process node,
followed by a post-process node whose input edge comes from it.  So a node followed by
another in a part is never a post-process node. -/
theorem parts_have_one_or_two_nodes (N : Bool) (g : Graph) (gop : GraphOfParts)
    (h : CreateGraphOfParts N g = .returned gop)
    (hsorted : ∀ n ∈ g.GetNodesSorted, n ∈ g.GetNodes)
    (hsingle : ∀ n ∈ g.GetNodes,
      IsNodeOfType .McePostProcessOperationNode (g.deref n) = true →
        ∃ e, (g.deref n).inputs = [e])
    (hmce : ∀ n ∈ g.GetNodes, IsNodeOfType .MceOperationNode (g.deref n) = true →
      IsNodeOfType .McePostProcessOperationNode (g.deref n) = false) :
    (∀ p ∈ gop.m_Parts,
        (∃ a, p.m_SubGraph = [a])
          ∨ ∃ a b e, p.m_SubGraph = [a, b]
              ∧ IsNodeOfType .MceOperationNode (g.deref a) = true
              ∧ (g.deref a).outputs.length = 1
              ∧ IsNodeOfType .McePostProcessOperationNode (g.deref a) = false
              ∧ IsNodeOfType .McePostProcessOperationNode (g.deref b) = true
              ∧ (g.deref b).inputs = [e] ∧ e.source = a)
      ∧ ∀ p ∈ gop.m_Parts, ∀ pre a b post, p.m_SubGraph = pre ++ a :: b :: post →
          IsNodeOfType .McePostProcessOperationNode (g.deref a) = false := by
  obtain ⟨hloop, -⟩ := CreateGraphOfParts_returned h
  have hinv := partitionLoop_inv hloop
  have hnode : ∀ p ∈ gop.m_Parts, ∀ x ∈ p.m_SubGraph, x ∈ g.GetNodes :=
    fun p hp x hx => hsorted x ((hinv.sublist p hp).subset hx)
  -- a node appended behind `a` has its single input from `a`, an MCE node
  have link : ∀ a b, a ∈ g.GetNodes → b ∈ g.GetNodes → appendedBehind g a b →
      ∃ e, (g.deref b).inputs = [e] ∧ e.source = a
        ∧ IsNodeOfType .McePostProcessOperationNode (g.deref b) = true
        ∧ IsNodeOfType .MceOperationNode (g.deref a) = true
        ∧ (g.deref a).outputs.length = 1
        ∧ IsNodeOfType .McePostProcessOperationNode (g.deref a) = false := by
    intro a b ha hb ⟨hc, e, he, hsrc⟩
    have hpp : IsNodeOfType .McePostProcessOperationNode (g.deref b) = true := by
      unfold isCase1 at hc
      simp only [Bool.and_eq_true] at hc
      exact hc.1
    obtain ⟨e0, hin⟩ := hsingle b hb hpp
    rw [hin] at he
    simp only [List.mem_singleton] at he
    subst he
    obtain ⟨-, h2, h3⟩ := isCase1_single_input hc hin
    rw [hsrc] at h2 h3
    exact ⟨e, hin, hsrc, hpp, h2, h3, hmce a ha h2⟩
  have shape : ∀ p ∈ gop.m_Parts,
      (∃ a, p.m_SubGraph = [a])
        ∨ ∃ a b e, p.m_SubGraph = [a, b]
            ∧ IsNodeOfType .MceOperationNode (g.deref a) = true
            ∧ (g.deref a).outputs.length = 1
            ∧ IsNodeOfType .McePostProcessOperationNode (g.deref a) = false
            ∧ IsNodeOfType .McePostProcessOperationNode (g.deref b) = true
            ∧ (g.deref b).inputs = [e] ∧ e.source = a := by
    intro p hp
    obtain ⟨a, t, hl, -⟩ := (hinv.shape p hp).head_new
    have hch := (hinv.shape p hp).chain
    rw [hl] at hch
    cases t with
    | nil => exact Or.inl ⟨a, hl⟩
    | cons b t2 =>
      right
      have ha : a ∈ g.GetNodes := hnode p hp a (by rw [hl]; simp)
      have hb : b ∈ g.GetNodes := hnode p hp b (by rw [hl]; simp)
      have hab := (List.chain'_cons.1 hch).1
      obtain ⟨e, hin, hsrc, hppb, hma, hoa, hnpa⟩ := link a b ha hb hab
      cases t2 with
      | nil => exact ⟨a, b, e, hl, hma, hoa, hnpa, hppb, hin, hsrc⟩
      | cons c t3 =>
        exfalso
        have hc : c ∈ g.GetNodes := hnode p hp c (by rw [hl]; simp)
        have hbc := (List.chain'_cons.1 (List.chain'_cons.1 hch).2).1
        obtain ⟨-, -, -, -, -, -, hnpb⟩ := link b c hb hc hbc
        rw [hppb] at hnpb
        cases hnpb
  refine ⟨shape, ?_⟩
  intro p hp pre a b post hsplit
  rcases shape p hp with ⟨x, hx⟩ | ⟨x, y, e, hxy, -, -, hnp, -⟩
  · rw [hx] at hsplit
    have := congrArg List.length hsplit
    simp at this
    omega
  · rw [hxy] at hsplit
    cases pre with
    | nil =>
      simp only [List.nil_append, List.cons.injEq] at hsplit
      rw [← hsplit.1]
      exact hnp
    | cons z pre2 =>
      have := congrArg List.length hsplit
      simp at this
      omega

theorem parts_have_one_or_two_nodes_witness :
    CreateGraphOfParts false chainGraph = .returned { m_Parts := [⟨[1]⟩, ⟨[2, 3]⟩] }
      ∧ (∀ n ∈ chainGraph.GetNodes,
          IsNodeOfType .McePostProcessOperationNode (chainGraph.deref n) = true →
            (chainGraph.deref n).inputs = [{ source := 2, destination := 3 }])
      ∧ ((∀ p ∈ [(⟨[1]⟩ : Part), ⟨[2, 3]⟩],
            (∃ a, p.m_SubGraph = [a])
              ∨ ∃ a b e, p.m_SubGraph = [a, b]
                  ∧ IsNodeOfType .MceOperationNode (chainGraph.deref a) = true
                  ∧ (chainGraph.deref a).outputs.length = 1
                  ∧ IsNodeOfType .McePostProcessOperationNode (chainGraph.deref a) = false
                  ∧ IsNodeOfType .McePostProcessOperationNode (chainGraph.deref b) = true
                  ∧ (chainGraph.deref b).inputs = [e] ∧ e.source = a)
        ∧ ∀ p ∈ [(⟨[1]⟩ : Part), ⟨[2, 3]⟩], ∀ pre a b post,
            p.m_SubGraph = pre ++ a :: b :: post →
              IsNodeOfType .McePostProcessOperationNode (chainGraph.deref a) = false) :=
  ⟨by decide, by decide,
    parts_have_one_or_two_nodes false chainGraph { m_Parts := [⟨[1]⟩, ⟨[2, 3]⟩] } (by decide)
      (by decide)
      (fun n hn hpp => ⟨{ source := 2, destination := 3 },
        (by decide : ∀ n ∈ chainGraph.GetNodes,
          IsNodeOfType .McePostProcessOperationNode (chainGraph.deref n) = true →
            (chainGraph.deref n).inputs = [{ source := 2, destination := 3 }]) n hn hpp⟩)
      (by decide)⟩

/-! ## The assertion of the reverse search on well-formed graphs -/

theorem sourcesBefore_split {g : Graph} {n : NodePtr} {B : List NodePtr} :
    ∀ {A seen : List NodePtr}, sourcesBefore g seen (A ++ n :: B) = true →
      ∀ e ∈ (g.deref n).inputs, e.source ∈ seen ++ A := by
  intro A
  induction A with
  | nil =>
    intro seen h e he
    simp only [List.nil_append, sourcesBefore, Bool.and_eq_true, List.all_eq_true] at h
    simpa using h.1 e he
  | cons a A ih =>
    intro seen h e he
    simp only [List.cons_append, sourcesBefore, Bool.and_eq_true] at h
    have := ih h.2 e he
    simpa using this

theorem inputs_filter_le (g : Graph) (P : Edge → Bool) {x : NodePtr} :
    ∀ {L : List NodePtr}, x ∈ L →
      ((g.deref x).inputs.filter P).length ≤ ((inputEdges g L).filter P).length := by
  intro L
  induction L with
  | nil => intro h; cases h
  | cons a T ih =>
    intro h
    simp only [inputEdges, List.filter_append, List.length_append]
    rcases List.mem_cons.1 h with hxa | hxT
    · rw [← hxa]
      omega
    · have := ih hxT
      omega

/-- Two different nodes of a list both contribute their input edges to its edges. -/
theorem inputs_filter_add_le (g : Graph) (P : Edge → Bool) {b n : NodePtr} (hbn : b ≠ n) :
    ∀ {L : List NodePtr}, b ∈ L → n ∈ L →
      ((g.deref b).inputs.filter P).length + ((g.deref n).inputs.filter P).length
        ≤ ((inputEdges g L).filter P).length := by
  intro L
  induction L with
  | nil => intro h; cases h
  | cons a T ih =>
    intro hb hn
    simp only [inputEdges, List.filter_append, List.length_append]
    rcases List.mem_cons.1 hb with hba | hbT
    · rcases List.mem_cons.1 hn with hna | hnT
      · exact absurd (hba.trans hna.symm) hbn
      · have := inputs_filter_le g P hnT
        rw [← hba]
        omega
    · rcases List.mem_cons.1 hn with hna | hnT
      · have := inputs_filter_le g P hbT
        rw [← hna]
        omega
      · have := ih hbT hnT
        omega

/-- In a well-formed graph in topological order, when the loop meets a case 1 node and
every node before it is in a part, the part of the node's first producer still ends in
that producer. -/
theorem match_exists {N : Bool} {g : Graph} (hwf : g.WellFormed)
    (hs : g.SortedTopologically) {done rest : List NodePtr} {n : NodePtr} {parts : Parts}
    (hsplit : g.GetNodesSorted = done ++ n :: rest)
    (hloop : partitionLoop N g done [] = .returned parts)
    (hcov : Covered done parts) (hc : isCase1 g n = true) :
    ∃ q ∈ parts, endsInSourceOf (g.deref n).inputs q := by
  have hinv := partitionLoop_inv hloop
  have hmemNodes : ∀ x ∈ g.GetNodesSorted, x ∈ g.GetNodes := fun x hx => hs.perm.mem_iff.1 hx
  -- the first input and its source, an MCE node with a single output
  obtain ⟨e0, more, hin, hmce, hone⟩ : ∃ e0 more, (g.deref n).inputs = e0 :: more
      ∧ IsNodeOfType .MceOperationNode (g.deref e0.source) = true
      ∧ (g.deref e0.source).outputs.length = 1 := by
    unfold isCase1 at hc
    cases hi : (g.deref n).inputs with
    | nil => simp [hi] at hc
    | cons e0 more =>
      simp only [hi, Bool.and_eq_true, beq_iff_eq] at hc
      exact ⟨e0, more, rfl, hc.2.1, hc.2.2⟩
  have hsb := hs.sources_before
  rw [hsplit] at hsb
  have hmdone : e0.source ∈ done := by
    simpa using sourcesBefore_split hsb e0 (by rw [hin]; simp)
  have hmnode : e0.source ∈ g.GetNodes :=
    hmemNodes _ (by rw [hsplit]; exact List.mem_append_left _ hmdone)
  have hmcase : isCase1 g e0.source = false := by
    simp [isCase1, hwf.mce_not_pp _ hmnode hmce]
  obtain ⟨p, hp, hmp⟩ := hcov _ hmdone
  have hshape := hinv.shape p hp
  have hhead := hshape.head_of_not_case1 hmp hmcase
  refine ⟨p, hp, e0.source, ?_, e0, by rw [hin]; simp, rfl⟩
  cases hl : p.m_SubGraph with
  | nil => rw [hl] at hmp; cases hmp
  | cons a t =>
    rw [hl] at hhead
    simp only [List.head?_cons, Option.some.injEq] at hhead
    subst hhead
    cases t with
    | nil => rfl
    | cons b t2 =>
      exfalso
      have hch := hshape.chain
      rw [hl] at hch
      obtain ⟨-, e, he, hsrc⟩ := (List.chain'_cons.1 hch).1
      have hbdone : b ∈ done := (hinv.sublist p hp).subset (by rw [hl]; simp)
      have hnd := hs.nodup
      rw [hsplit] at hnd
      have hn_notin : n ∉ done ++ rest := (List.nodup_cons.1 (List.nodup_middle.1 hnd)).1
      have hbn : b ≠ n := by
        rintro rfl
        exact hn_notin (List.mem_append_left _ hbdone)
      have hbnode : b ∈ g.GetNodes :=
        hmemNodes _ (by rw [hsplit]; exact List.mem_append_left _ hbdone)
      have hnnode : n ∈ g.GetNodes := hmemNodes _ (by rw [hsplit]; simp)
      have hcount := inputs_filter_add_le g (fun x => x.source == e0.source) hbn hbnode hnnode
      have h1 : 0 < ((g.deref b).inputs.filter fun x => x.source == e0.source).length :=
        List.length_pos_of_mem (List.mem_filter.2 ⟨he, by simp [hsrc]⟩)
      have he0 : e0 ∈ (g.deref n).inputs := by rw [hin]; simp
      have h2 : 0 < ((g.deref n).inputs.filter fun x => x.source == e0.source).length :=
        List.length_pos_of_mem (List.mem_filter.2 ⟨he0, by simp⟩)
      have hout := (hwf.outputs_eq _ hmnode).length_eq
      rw [hone] at hout
      unfold Graph.edges at hout
      omega

/-- On a well-formed graph in topological order no iteration leaves its node out:
after any number of iterations every processed node is in a part. -/
theorem covered_so_far {N : Bool} {g : Graph} (hwf : g.WellFormed)
    (hs : g.SortedTopologically) :
    ∀ (done rest : List NodePtr) (parts : Parts), g.GetNodesSorted = done ++ rest →
      partitionLoop N g done [] = .returned parts → Covered done parts := by
  intro done
  induction done using List.reverseRecOn with
  | nil => intro rest parts _ _ x hx; cases hx
  | append_singleton done n ih =>
    intro rest parts hsplit hloop
    rw [partitionLoop_append] at hloop
    obtain ⟨mid, hmid, hstep⟩ := Outcome.bind_eq_returned.1 hloop
    simp only [partitionLoop] at hstep
    obtain ⟨next, hnext, hret⟩ := Outcome.bind_eq_returned.1 hstep
    simp only [Outcome.returned.injEq] at hret
    subst hret
    have hsplit2 : g.GetNodesSorted = done ++ n :: rest := by simpa using hsplit
    have hcov := ih (n :: rest) mid hsplit2 hmid
    have keep : ∀ (ps : Parts), (∀ q ∈ mid, ∃ r ∈ ps, ∀ x ∈ q.m_SubGraph, x ∈ r.m_SubGraph) →
        (∃ r ∈ ps, n ∈ r.m_SubGraph) → Covered (done ++ [n]) ps := by
      intro ps hold hnew x hx
      rcases List.mem_append.1 hx with hx | hx
      · obtain ⟨q, hq, hxq⟩ := hcov x hx
        obtain ⟨r, hr, hsub⟩ := hold q hq
        exact ⟨r, hr, hsub x hxq⟩
      · simp only [List.mem_singleton] at hx
        subst hx
        exact hnew
    rcases partitionStep_returned hnext with ⟨-, rfl⟩ | ⟨-, A, p, B, rfl, rfl, -, -⟩
      | ⟨hc, -, -, hno⟩
    · apply keep
      · intro q hq
        exact ⟨q, List.mem_append_left _ hq, fun x hx => hx⟩
      · exact ⟨_, List.mem_append_right _ (List.mem_singleton_self _), by simp⟩
    · apply keep
      · intro q hq
        rcases List.mem_append.1 hq with hq | hq
        · exact ⟨q, List.mem_append_left _ hq, fun x hx => hx⟩
        · rcases List.mem_cons.1 hq with rfl | hq
          · exact ⟨AddNodeToPart n q, by simp, fun x hx => by simp [AddNodeToPart, hx]⟩
          · exact ⟨q, List.mem_append_right _ (List.mem_cons_of_mem _ hq), fun x hx => hx⟩
      · exact ⟨AddNodeToPart n p, by simp, by simp [AddNodeToPart]⟩
    · obtain ⟨q, hq, hmatch⟩ := match_exists hwf hs hsplit2 hmid hcov hc
      exact absurd hmatch (hno q hq)

/-- On a well-formed graph in topological order every iteration returns. -/
theorem partitionStep_returns {N : Bool} {g : Graph} (hwf : g.WellFormed)
    (hs : g.SortedTopologically) {done rest : List NodePtr} {n : NodePtr} {parts : Parts}
    (hsplit : g.GetNodesSorted = done ++ n :: rest)
    (hloop : partitionLoop N g done [] = .returned parts) :
    ∃ next, partitionStep N g parts n = .returned next := by
  have hinv := partitionLoop_inv hloop
  have hcov := covered_so_far hwf hs done (n :: rest) parts hsplit hloop
  have hnnode : n ∈ g.GetNodes := hs.perm.mem_iff.1 (by rw [hsplit]; simp)
  cases hc : isCase1 g n with
  | true =>
    rw [partitionStep_of_case1 N g parts n hc]
    have hne : ∀ q ∈ parts, q.m_SubGraph ≠ [] := by
      intro q hq hnil
      obtain ⟨a, t, hl, -⟩ := (hinv.shape q hq).head_new
      rw [hnil] at hl
      cases hl
    obtain ⟨r, hr⟩ := @findPartRev_total (g.deref n).inputs n parts.reverse
      (fun q hq => hne q (List.mem_reverse.1 hq))
    cases r with
    | none =>
      obtain ⟨q, hq, hmatch⟩ := match_exists hwf hs hsplit hloop hcov hc
      exact absurd hmatch (findPartRev_none hr q (List.mem_reverse.2 hq))
    | some found =>
      refine ⟨found.reverse, ?_⟩
      unfold FindPartFromSourceAndAddNode
      rw [hr]
      rfl
  | false =>
    unfold partitionStep
    cases hpp : IsNodeOfType .McePostProcessOperationNode (g.deref n) with
    | false => exact ⟨AddNodeToNewPart parts n, by simp⟩
    | true =>
      cases hin : (g.deref n).inputs with
      | nil => exact absurd hin (hwf.pp_has_input n hnnode hpp)
      | cons e0 more =>
        have hcond : (IsNodeOfType .MceOperationNode (g.deref e0.source)
            && (g.deref e0.source).outputs.length == 1) = false := by
          simpa [isCase1, hpp, hin] using hc
        exact ⟨AddNodeToNewPart parts n, by simp [hcond]⟩

theorem partitionLoop_returns {N : Bool} {g : Graph} (hwf : g.WellFormed)
    (hs : g.SortedTopologically) :
    ∀ (rest done : List NodePtr) (parts : Parts), g.GetNodesSorted = done ++ rest →
      partitionLoop N g done [] = .returned parts →
        ∃ result, partitionLoop N g rest parts = .returned result := by
  intro rest
  induction rest with
  | nil => intro done parts _ _; exact ⟨parts, rfl⟩
  | cons n rest ih =>
    intro done parts hsplit hloop
    obtain ⟨next, hnext⟩ := partitionStep_returns hwf hs hsplit hloop
    have hloop2 : partitionLoop N g (done ++ [n]) [] = .returned next := by
      rw [partitionLoop_append, hloop]
      simp [Outcome.bind, partitionLoop, hnext]
    obtain ⟨result, hresult⟩ := ih (done ++ [n]) next (by simpa using hsplit) hloop2
    exact ⟨result, by simp [partitionLoop, hnext, Outcome.bind, hresult]⟩

/-- Claim C23. On a well-formed graph whose `GetNodesSorted` is a topological order,
whenever the loop meets a case 1 node some part ends in the source of one of the
node's inputs, so the assertion "MCE Post-Process node has not been added to any Part"
is not reached: `CreateGraphOfParts` does not end in a failed assertion, and in fact
it returns a `GraphOfParts`. -/
theorem assertion_never_reached (N : Bool) (g : Graph) (hwf : g.WellFormed)
    (hs : g.SortedTopologically) :
    (∀ done n rest parts, g.GetNodesSorted = done ++ n :: rest →
        partitionLoop N g done [] = .returned parts → isCase1 g n = true →
          ∃ q ∈ parts, endsInSourceOf (g.deref n).inputs q)
      ∧ (∀ w, CreateGraphOfParts N g ≠ .assertionFailed w)
      ∧ ∃ gop, CreateGraphOfParts N g = .returned gop := by
  have hret : ∃ gop, CreateGraphOfParts N g = .returned gop := by
    obtain ⟨result, hresult⟩ := partitionLoop_returns hwf hs g.GetNodesSorted [] [] rfl rfl
    have hcov := covered_so_far hwf hs g.GetNodesSorted [] result (by simp) hresult
    exact ⟨_, CreateGraphOfParts_of_loop hresult
      (fun x hx => hcov x (hs.perm.mem_iff.2 hx))⟩
  refine ⟨?_, ?_, hret⟩
  · intro done n rest parts hsplit hloop hc
    exact match_exists hwf hs hsplit hloop
      (covered_so_far hwf hs done (n :: rest) parts hsplit hloop) hc
  · intro w hw
    obtain ⟨gop, hgop⟩ := hret
    rw [hgop] at hw
    cases hw

theorem assertion_never_reached_witness :
    chainGraph.WellFormed ∧ chainGraph.SortedTopologically
      ∧ isCase1 chainGraph 3 = true
      ∧ partitionLoop false chainGraph [1, 2] [] = .returned [⟨[1]⟩, ⟨[2]⟩]
      ∧ ((∀ done n rest parts, chainGraph.GetNodesSorted = done ++ n :: rest →
            partitionLoop false chainGraph done [] = .returned parts →
              isCase1 chainGraph n = true →
                ∃ q ∈ parts, endsInSourceOf (chainGraph.deref n).inputs q)
        ∧ (∀ w, CreateGraphOfParts false chainGraph ≠ .assertionFailed w)
        ∧ ∃ gop, CreateGraphOfParts false chainGraph = .returned gop) :=
  ⟨⟨by decide, by decide, by decide⟩, ⟨by decide, by decide, by decide⟩, by decide,
    by decide,
    assertion_never_reached false chainGraph ⟨by decide, by decide, by decide⟩
      ⟨by decide, by decide, by decide⟩⟩

end ethosn.support_library
